import Mathlib

/-!
Shallow embedding of the multi-provider metric registry and smart-TTL cache of
this repository (`tradingagents/dataflows/metric_registry.py` and
`tradingagents/dataflows/crypto_cache.py`), together with proofs checking the
natural-language specification against it.

Modelling conventions:
* Python values exchanged with loaders and the cache are modelled by the
  JSON-like type `Value`; `None` is `Option.none`.
* Python dicts are insertion-ordered association lists (`dinsert` / `dlookup`).
* Exceptions raised by the cache backend are modelled by explicit failure flags
  on the backend; code that catches exceptions is embedded as the total
  function it computes.
* Wall-clock readings (`datetime.now()` and the market-hours /
  high-volatility-period heuristics derived from it) are passed in as data.
* Floating-point running statistics (`average_batch_size`) are not modelled;
  no claim mentions them.
-/

namespace CA

/-- JSON-like values.
`vframe b` models a pandas DataFrame whose `empty` flag is `b`;
`vpairs` models a flat JSON object of string fields (such as a `params` dict);
`ventry data cached_at endpoint params data_type ttl_used` models the
metadata-carrying JSON object that the cache writes, i.e. the dict
`\x7b"data": ..., "cached_at": ..., "endpoint": ..., "params": ...,
"data_type": ..., "ttl_used": ...\x7d` built by `CryptoCacheManager.set`. -/
inductive Value where
  | vnull : Value
  | vint : Int → Value
  | vstr : String → Value
  | vbool : Bool → Value
  | vframe : Bool → Value
  | vpairs : List (String × String) → Value
  | ventry : Value → String → String → List (String × String) → String → Nat → Value
deriving Repr, DecidableEq

/-- Python dict assignment `d[k] = v`: overwrite in place if the key exists,
else append (dicts preserve insertion order; keys of a dict are unique, so
replacing the first occurrence is the dict semantics). -/
def dinsert {α : Type} : List (String × α) → String → α → List (String × α)
  | [], k, v => [(k, v)]
  | e :: d, k, v => if e.1 == k then (k, v) :: d else e :: dinsert d k v

/-- Python dict lookup `d.get(k)`. -/
def dlookup {α : Type} (d : List (String × α)) (k : String) : Option α :=
  (d.find? (fun e => e.1 == k)).map (·.2)

/-- Python `d.update(d2)`. -/
def dupdate {α : Type} : List (String × α) → List (String × α) → List (String × α)
  | d, [] => d
  | d, e :: rest => dupdate (dinsert d e.1 e.2) rest

/-- Python `str.split` on a single separator character. -/
def splitOnCharAux (sep : Char) : List Char → List Char → List String
  | [], cur => [String.mk cur.reverse]
  | c :: cs, cur =>
    if c == sep then String.mk cur.reverse :: splitOnCharAux sep cs []
    else splitOnCharAux sep cs (c :: cur)

def splitOnChar (sep : Char) (s : String) : List String := splitOnCharAux sep s.toList []

/-- Lowercasing as in Python's `str.lower`, written over the character list so
that it evaluates inside the kernel. -/
def strLower (s : String) : String := String.mk (s.toList.map Char.toLower)

def listPrefixOf : List Char → List Char → Bool
  | [], _ => true
  | _ :: _, [] => false
  | a :: as, b :: bs => a == b && listPrefixOf as bs

def listInfixOf (needle : List Char) : List Char → Bool
  | [] => listPrefixOf needle []
  | b :: bs => listPrefixOf needle (b :: bs) || listInfixOf needle bs

/-- Python's substring test `needle in hay`. -/
def strContains (hay needle : String) : Bool := listInfixOf needle.toList hay.toList

/-! ### TTL policy — `crypto_cache.py`, `DataVolatility` and `SmartTTLStrategy` -/

/-- `DataVolatility` enumeration. -/
inductive DataVolatility where
  | ultra_high : DataVolatility
  | high : DataVolatility
  | medium : DataVolatility
  | low : DataVolatility
  | very_low : DataVolatility
deriving Repr, DecidableEq

/-- `SmartTTLStrategy.TTL_MAPPING`: base TTL in seconds per volatility class. -/
def TTL_MAPPING : DataVolatility → Nat
  | .ultra_high => 10
  | .high => 30
  | .medium => 60
  | .low => 300
  | .very_low => 900

/-- `SmartTTLStrategy.DATA_TYPE_VOLATILITY`, in source order. -/
def DATA_TYPE_VOLATILITY : List (String × DataVolatility) :=
  [("order_book", .ultra_high), ("order_book_depth", .ultra_high),
   ("live_price", .ultra_high), ("spread_analysis", .ultra_high),
   ("price_data", .high), ("ohlcv_1m", .high), ("ohlcv_5m", .high),
   ("volume_analysis", .high), ("arbitrage_opportunities", .high),
   ("whale_movements", .medium), ("exchange_flows", .medium), ("ohlcv_1h", .medium),
   ("market_sentiment", .medium), ("technical_indicators", .medium),
   ("network_metrics", .low), ("active_addresses", .low), ("hash_rate", .low),
   ("transactions_count", .low), ("ohlcv_4h", .low), ("ohlcv_1d", .low),
   ("market_cap", .very_low), ("supply_metrics", .very_low),
   ("token_info", .very_low), ("historical_data", .very_low)]

/-- `DATA_TYPE_VOLATILITY.get(data_type)`. -/
def volatilityOf (data_type : String) : Option DataVolatility :=
  (DATA_TYPE_VOLATILITY.find? (fun e => e.1 == data_type)).map (·.2)

/-- `SmartTTLStrategy.get_ttl`.  The Python `int(base_ttl * 2)` and
`int(base_ttl * 0.5)` are exact on the values reachable here (all base TTLs
are even), so they are embedded as `* 2` and `/ 2` on `Nat`. -/
def get_ttl (data_type : String) (market_hours : Bool) (high_volatility_period : Bool) : Nat :=
  let base_volatility := (volatilityOf data_type).getD .medium
  let ttl0 := TTL_MAPPING base_volatility
  let ttl1 := if market_hours then ttl0 else ttl0 * 2
  if high_volatility_period then max (ttl1 / 2) 5 else ttl1

/-- Modelled from the spec's words (for comparison with `get_ttl`): base TTL
from the tag's volatility class (MEDIUM when unmapped), the two adjustments
composed multiplicatively (×2 when off-hours, ×1/2 when volatile), and the
5-second floor applied last, only in the high-volatility case. -/
def resolve_ttl_spec (data_type : String) (market_hours : Bool)
    (high_volatility_period : Bool) : Nat :=
  let base := TTL_MAPPING ((volatilityOf data_type).getD .medium)
  let scaled := base * (if market_hours then 1 else 2) / (if high_volatility_period then 2 else 1)
  if high_volatility_period then max scaled 5 else scaled

/-! ### Cache manager — `crypto_cache.py`, `CryptoCacheManager` -/

/-- The key-value cache backend (Redis in the source).  `getFails` models read
operations (`get` / `mget`) raising, `setFails` models write operations
(`setex` / pipelined `setex`) raising; a wholly unreachable backend has both
set.  TTL expiry is enforced by the backend clock and is not modelled: every
read here is "before the TTL elapses". -/
structure Backend where
  store : List (String × Value)
  getFails : Bool
  setFails : Bool
deriving Repr, DecidableEq

def Backend.read (b : Backend) (key : String) : Except Unit (Option Value) :=
  if b.getFails then .error () else .ok (dlookup b.store key)

def Backend.setex (b : Backend) (key : String) (payload : Value) : Except Unit Backend :=
  if b.setFails then .error () else .ok { b with store := dinsert b.store key payload }

/-- Code-point lexicographic comparison of strings, as Python compares them;
written over the character lists so that it evaluates inside the kernel. -/
def charListLt : List Char → List Char → Bool
  | _, [] => false
  | [], _ :: _ => true
  | a :: as, b :: bs =>
    if a.toNat < b.toNat then true
    else if a.toNat = b.toNat then charListLt as bs
    else false

def strLtB (a b : String) : Bool := charListLt a.toList b.toList

/-- Sorting of `params.items()` as in Python `sorted`: lexicographic on the
(key, value) pair.  Implemented as an insertion sort; only its computability
matters to the claims. -/
def pairLeB (a b : String × String) : Bool :=
  if strLtB a.1 b.1 then true
  else if a.1 == b.1 then !(strLtB b.2 a.2)
  else false

def insertPair (x : String × String) :
    List (String × String) → List (String × String)
  | [] => [x]
  | y :: ys => if pairLeB x y then x :: y :: ys else y :: insertPair x ys

def sortedParams (ps : List (String × String)) : List (String × String) :=
  ps.foldr insertPair []

/-- `CryptoCacheManager._generate_cache_key`.  The `md5` hexdigest of
`key_data` is modelled by `key_data` itself: the design treats the digest as an
injective fingerprint of `(endpoint, sorted(params.items()))`. -/
def generate_cache_key (endpoint : String) (params : List (String × String)) : String :=
  let sp := sortedParams params
  let key_data := endpoint ++ ":" ++ String.intercalate ";" (sp.map (fun p => p.1 ++ "=" ++ p.2))
  "crypto_cache:" ++ endpoint ++ ":" ++ key_data

/-- `CryptoCacheManager._detect_data_type`. -/
def detect_data_type (endpoint : String) (params : List (String × String)) : String :=
  let e := strLower endpoint
  match DATA_TYPE_VOLATILITY.find? (fun t => strContains e t.1) with
  | some t => t.1
  | none =>
    if strContains e "order" && strContains e "book" then "order_book"
    else if strContains e "ohlcv" || strContains e "candle" then
      match dlookup params "timeframe" with
      | some tf => "ohlcv_" ++ tf
      | none => "ohlcv_1h"
    else if strContains e "price" then "price_data"
    else if strContains e "whale" then "whale_movements"
    else if strContains e "exchange" && strContains e "flow" then "exchange_flows"
    else if strContains e "active" && strContains e "address" then "active_addresses"
    else if strContains e "hash" && strContains e "rate" then "hash_rate"
    else if strContains e "network" then "network_metrics"
    else "medium_volatility_default"

/-- `CryptoCacheManager` state: the backend handle, the hit/miss/set counters
of `cache_stats`, and the current wall-clock readings (`datetime.utcnow()`
and the `_is_market_hours` / `_is_high_volatility_period` heuristics computed
from it) passed in as data. -/
structure CacheManager where
  cache_enabled : Bool
  backend : Backend
  hits : Nat
  misses : Nat
  sets : Nat
  batch_requests : Nat
  batch_hits : Nat
  now : String
  market_hours : Bool
  high_volatility : Bool
deriving Repr, DecidableEq

/-- `CryptoCacheManager.get`.  A stored entry is always a non-empty JSON text,
hence truthy, so any present value is a hit; exceptions from the backend read
are caught and fall through to the miss path. -/
def CacheManager.get (m : CacheManager) (endpoint : String)
    (params : List (String × String)) : Option Value × CacheManager :=
  if !m.cache_enabled then (none, m)
  else
    match m.backend.read (generate_cache_key endpoint params) with
    | .error _ => (none, { m with misses := m.misses + 1 })
    | .ok none => (none, { m with misses := m.misses + 1 })
    | .ok (some v) => (some v, { m with hits := m.hits + 1 })

/-- TTL used by `CryptoCacheManager.set`: the explicit argument if given, else
the smart TTL from the detected data type and the current market heuristics. -/
def CacheManager.resolveSetTtl (m : CacheManager) (endpoint : String)
    (params : List (String × String)) (ttl : Option Nat) : Nat :=
  match ttl with
  | some t => t
  | none => get_ttl (detect_data_type endpoint params) m.market_hours m.high_volatility

/-- The metadata-carrying JSON object written by `CryptoCacheManager.set`. -/
def mkCacheEntry (m : CacheManager) (endpoint : String) (data : Value)
    (params : List (String × String)) (ttl : Nat) : Value :=
  .ventry data m.now endpoint params (detect_data_type endpoint params) ttl

/-- `CryptoCacheManager.set`; exceptions from the backend write are caught and
converted into a `false` return. -/
def CacheManager.set (m : CacheManager) (endpoint : String) (data : Value)
    (params : List (String × String)) (ttl : Option Nat) : Bool × CacheManager :=
  if !m.cache_enabled then (false, m)
  else
    let t := m.resolveSetTtl endpoint params ttl
    match m.backend.setex (generate_cache_key endpoint params) (mkCacheEntry m endpoint data params t) with
    | .error _ => (false, m)
    | .ok b => (true, { m with backend := b, sets := m.sets + 1 })

/-- Python `hash(str(params))`, modelled as an injective textual encoding of
the dict in insertion order (the stand-in plays the same role as the hash:
a stable fingerprint of the parameter dict). -/
def rawParamsEnc (params : List (String × String)) : String :=
  String.intercalate "," (params.map (fun p => p.1 ++ "=" ++ p.2))

/-- `CryptoCacheManager.get_batch`: one `mget` over all derived keys,
demultiplexed to `f"\x7bendpoint\x7d:\x7bhash(str(params))\x7d"` request ids;
a raising `mget` is caught, leaving the empty result dict. -/
def CacheManager.get_batch (m : CacheManager)
    (requests : List (String × List (String × String))) :
    List (String × Option Value) × CacheManager :=
  if !m.cache_enabled then ([], m)
  else if m.backend.getFails then ([], { m with batch_requests := m.batch_requests + 1 })
  else
    let results := requests.foldl
      (fun acc r =>
        let key := generate_cache_key r.1 r.2
        let rid := r.1 ++ ":" ++ rawParamsEnc r.2
        dinsert acc rid (dlookup m.backend.store key))
      []
    let hits := results.countP (fun e => e.2.isSome)
    (results, { m with batch_requests := m.batch_requests + 1,
                       batch_hits := m.batch_hits + hits })

/-- `CryptoCacheManager.set_batch`: pipelined `setex` for every item (smart TTL
when none is given); a raising pipeline is caught, reporting zero writes. -/
def CacheManager.set_batch (m : CacheManager)
    (items : List (String × Value × List (String × String) × Option Nat)) :
    Nat × CacheManager :=
  if !m.cache_enabled then (0, m)
  else if m.backend.setFails then (0, m)
  else
    let b := items.foldl
      (fun (b : Backend) it =>
        let (endpoint, data, params, ttl) := it
        let t := m.resolveSetTtl endpoint params ttl
        { b with store := dinsert b.store (generate_cache_key endpoint params)
                            (mkCacheEntry m endpoint data params t) })
      m.backend
    (items.length, { m with backend := b, sets := m.sets + items.length })

/-! ### Providers — `metric_registry.py`, `DataProvider` -/

/-- `DataProvider`: static configuration plus the mutable health state.
`calls` counts loader invocations so far; it stands for the identity of the
next call and drives the scripted loader behaviours below. -/
structure Provider where
  name : String
  priority : Int
  available_metrics : List String
  requires_api_key : Bool
  failure_count : Nat
  last_success : Option String
  is_healthy : Bool
  calls : Nat
deriving Repr, DecidableEq

/-- `DataProvider.__init__`. -/
def mkProvider (name : String) (priority : Int) (metrics : List String)
    (requires_api_key : Bool := false) : Provider :=
  ⟨name, priority, metrics, requires_api_key, 0, none, true, 0⟩

/-- `DataProvider.can_provide`. -/
def Provider.can_provide (p : Provider) (metric : String) : Bool :=
  p.available_metrics.contains metric && p.is_healthy

/-- `DataProvider.record_success` (`now` is `datetime.now()`). -/
def Provider.record_success (p : Provider) (now : String) : Provider :=
  { p with failure_count := 0, last_success := some now, is_healthy := true }

/-- `DataProvider.record_failure`. -/
def Provider.record_failure (p : Provider) : Provider :=
  let fc := p.failure_count + 1
  { p with failure_count := fc, is_healthy := if 3 ≤ fc then false else p.is_healthy }

/-- `DataProvider.reset_health`. -/
def Provider.reset_health (p : Provider) : Provider :=
  { p with failure_count := 0, is_healthy := true }

/-- One health-mutating call on a provider. -/
inductive HealthOp where
  | success : String → HealthOp
  | failure : HealthOp
  | reset : HealthOp
deriving Repr, DecidableEq

def applyHealthOp (p : Provider) : HealthOp → Provider
  | .success now => p.record_success now
  | .failure => p.record_failure
  | .reset => p.reset_health

def runHealthOps (p : Provider) (ops : List HealthOp) : Provider :=
  ops.foldl applyHealthOp p

/-- The sort key comparison `(priority, failure_count)` used by
`available_providers.sort(key=lambda x: (x.priority, x.failure_count))`. -/
def provLE (a b : Provider) : Prop :=
  a.priority < b.priority ∨ (a.priority = b.priority ∧ a.failure_count ≤ b.failure_count)

instance : DecidableRel provLE := fun a b => by unfold provLE; infer_instance

/-- Python's stable ascending sort by `(priority, failure_count)`. -/
def sortProviders (ps : List Provider) : List Provider := ps.insertionSort provLE

/-! ### Metric registry — `metric_registry.py`, `MetricRegistry` -/

/-- Outcome of one loader invocation: the loader raised, or returned a value
(`returns none` is Python `None`). -/
inductive LoaderOutcome where
  | raises : LoaderOutcome
  | returns : Option Value → LoaderOutcome
deriving Repr, DecidableEq

/-- Loader behaviours: `loaders name k metric asset` is the outcome of the
`(k+1)`-st invocation of provider `name`'s `loader_func`, called on
`(metric, asset)`.  Indexing by the invocation count models loaders whose
behaviour changes across calls. -/
def Loaders := String → Nat → String → String → LoaderOutcome

/-- The non-empty check of `get_metric`:
`result is not None and not (isinstance(result, pd.DataFrame) and result.empty)`. -/
def nonEmptyResult : Option Value → Bool
  | none => false
  | some (.vframe true) => false
  | some _ => true

def findProv (ps : List Provider) (n : String) : Option Provider :=
  ps.find? (fun p => p.name == n)

/-- Mutating the provider object named `n` inside the registry list (provider
names are unique in the registry, so the name identifies the object). -/
def updateProv (ps : List Provider) (n : String) (f : Provider → Provider) :
    List Provider :=
  ps.map (fun p => if p.name == n then f p else p)

def bumpCalls (ps : List Provider) (n : String) : List Provider :=
  updateProv ps n (fun p => { p with calls := p.calls + 1 })

/-- The fallback loop of `MetricRegistry.get_metric` over the snapshot of
eligible provider names, threading the registry's provider states:
a raising loader records a failure and continues; an empty result just
continues; the first non-empty result records a success and returns. -/
def tryProviders (loaders : Loaders) (now : String) (metric asset : String) :
    List String → List Provider → Option Value × List Provider
  | [], ps => (none, ps)
  | n :: rest, ps =>
    match findProv ps n with
    | none => tryProviders loaders now metric asset rest ps
    | some p =>
      match loaders n p.calls metric asset with
      | .raises =>
          tryProviders loaders now metric asset rest
            (updateProv (bumpCalls ps n) n Provider.record_failure)
      | .returns r =>
          if nonEmptyResult r then
            (r, updateProv (bumpCalls ps n) n (fun q => q.record_success now))
          else
            tryProviders loaders now metric asset rest (bumpCalls ps n)

/-- The eligible-provider list of `get_metric` and `group_by_provider`:
`[p for p in providers if p.can_provide(metric)]` sorted by
`(priority, failure_count)`. -/
def eligibleProviders (ps : List Provider) (metric : String) : List Provider :=
  sortProviders (ps.filter (fun p => p.can_provide metric))

/-- `MetricRegistry.get_metric`: returns the fetched value (or `none`) and the
updated provider states. -/
def get_metric (loaders : Loaders) (now : String) (ps : List Provider)
    (metric asset : String) : Option Value × List Provider :=
  tryProviders loaders now metric asset ((eligibleProviders ps metric).map (·.name)) ps

/-! ### Batch optimizer — `metric_registry.py`, `BatchOptimizer` -/

/-- A metric request `(metric, asset)`. -/
abbrev Req := String × String

/-- The request identifier `f"\x7bmetric\x7d:\x7basset\x7d"`. -/
def requestKey (r : Req) : String := r.1 ++ ":" ++ r.2

/-- `BatchOptimizer.optimize_cache_keys`. -/
def optimize_cache_keys (requests : List Req) :
    List (String × List (String × String)) :=
  requests.map (fun r => ("metric_" ++ r.1, [("asset", r.2), ("metric", r.1)]))

def detectRedundantAux (seen : List String) (uniq : List Req)
    (rmap : List (String × String)) : List Req → List Req × List (String × String)
  | [] => (uniq, rmap)
  | r :: rs =>
    let k := requestKey r
    if seen.contains k then detectRedundantAux seen uniq (dinsert rmap k k) rs
    else detectRedundantAux (seen ++ [k]) (uniq ++ [r]) rmap rs

/-- `BatchOptimizer.detect_redundant_requests`: the first occurrence of each
`(metric, asset)` pair is kept; later duplicates only mark the redundancy map. -/
def detect_redundant_requests (requests : List Req) :
    List Req × List (String × String) :=
  detectRedundantAux [] [] [] requests

/-- `provider_groups.setdefault(name, []).append(request)` (group names are
unique, so appending to the first matching group is the dict semantics). -/
def addToGroup : List (String × List Req) → String → Req → List (String × List Req)
  | [], n, r => [(n, [r])]
  | g :: gs, n, r => if g.1 == n then (g.1, g.2 ++ [r]) :: gs else g :: addToGroup gs n r

def groupByProviderAux (providers : List Provider) (groups : List (String × List Req)) :
    List Req → List (String × List Req)
  | [] => groups
  | r :: rs =>
    match eligibleProviders providers r.1 with
    | [] => groupByProviderAux providers groups rs
    | best :: _ => groupByProviderAux providers (addToGroup groups best.name r) rs

/-- `BatchOptimizer.group_by_provider`: each request goes to the eligible
provider with the least `(priority, failure_count)`; requests with no eligible
provider are dropped. -/
def group_by_provider (requests : List Req) (providers : List Provider) :
    List (String × List Req) :=
  groupByProviderAux providers [] requests

def runBatchReqs (loaders : Loaders) (now n : String) :
    List Req → List (String × Option Value) × List Provider × List (String × Req) →
    List (String × Option Value) × List Provider × List (String × Req)
  | [], acc => acc
  | r :: rs, (results, ps, trace) =>
    match findProv ps n with
    | none => runBatchReqs loaders now n rs (results, ps, trace)
    | some p =>
      match loaders n p.calls r.1 r.2 with
      | .raises =>
          runBatchReqs loaders now n rs
            (dinsert results (requestKey r) none,
             updateProv (bumpCalls ps n) n Provider.record_failure, trace ++ [(n, r)])
      | .returns none =>
          runBatchReqs loaders now n rs
            (dinsert results (requestKey r) none, bumpCalls ps n, trace ++ [(n, r)])
      | .returns (some v) =>
          runBatchReqs loaders now n rs
            (dinsert results (requestKey r) (some v),
             updateProv (bumpCalls ps n) n (fun q => q.record_success now), trace ++ [(n, r)])

/-- `MetricRegistry._execute_provider_batch` for the provider named `n`:
sequential loop over the group's requests; a raising loader records a failure
and stores `None`; a `None` result stores `None` (with no failure recorded);
any other result is stored and records a success.  Also returns the trace of
loader invocations `(provider, request)` made. -/
def execute_provider_batch (loaders : Loaders) (now : String) (n : String)
    (requests : List Req) (ps : List Provider) :
    List (String × Option Value) × List Provider × List (String × Req) :=
  runBatchReqs loaders now n requests ([], ps, [])

def runGroups (loaders : Loaders) (now : String) :
    List (String × List Req) →
    List (String × Option Value) × List Provider × List (String × Req) →
    List (String × Option Value) × List Provider × List (String × Req)
  | [], acc => acc
  | g :: gs, (results, ps, trace) =>
    match findProv ps g.1 with
    | none => runGroups loaders now gs (results, ps, trace)
    | some _ =>
      match execute_provider_batch loaders now g.1 g.2 ps with
      | (fresh, ps', t) => runGroups loaders now gs (dupdate results fresh, ps', trace ++ t)

/-- `MetricRegistry._execute_provider_batches`.  The source runs one task per
provider group on a bounded thread pool and merges results as tasks complete;
distinct groups touch distinct providers and produce disjoint result keys, so
every completion order computes this sequential fold. -/
def execute_provider_batches (loaders : Loaders) (now : String)
    (groups : List (String × List Req)) (ps : List Provider) :
    List (String × Option Value) × List Provider × List (String × Req) :=
  runGroups loaders now groups ([], ps, [])

/-- The registry state threaded through `get_metrics_batch`: the provider list
and the cache manager.  The registry's own `batch_stats` (which include a
floating-point running mean) are not modelled. -/
structure RegState where
  providers : List Provider
  cache : CacheManager
deriving Repr, DecidableEq

/-- `wrapper['data']` on a cached entry.  Cache writes always store a
`ventry`, whose `data` field exists; on any other stored shape the source
raises an uncaught KeyError/TypeError out of `get_metrics_batch`, a path this
total function collapses — theorems quantifying over arbitrary backend stores
must exclude it by hypothesis (see `entryShaped` and C8). -/
def entryData : Value → Value
  | .ventry d _ _ _ _ _ => d
  | v => v

/-- The cache-key text `f"metric_\x7bmetric\x7d:\x7bhash(str(...))\x7d"` that
`get_metrics_batch` uses to look a request up in the `get_batch` result. -/
def batchCacheId (r : Req) : String :=
  "metric_" ++ r.1 ++ ":" ++ rawParamsEnc [("asset", r.2), ("metric", r.1)]

def splitByCacheAux (cached : List (String × Option Value))
    (results : List (String × Option Value)) (remaining : List Req) :
    List Req → List (String × Option Value) × List Req
  | [] => (results, remaining)
  | r :: rs =>
    match dlookup cached (batchCacheId r) with
    | some (some entry) =>
        splitByCacheAux cached (dinsert results (requestKey r) (some (entryData entry)))
          remaining rs
    | _ => splitByCacheAux cached results (remaining ++ [r]) rs

/-- Step 1 of `get_metrics_batch`: populate `results` from cache hits, collect
the missing requests into `remaining`. -/
def splitByCache (cached : List (String × Option Value)) (requests : List Req) :
    List (String × Option Value) × List Req :=
  splitByCacheAux cached [] [] requests

/-- Step 4 of `get_metrics_batch`: turn the non-`None` fresh results into
`set_batch` items via `metric, asset = request_id.split(':')`.  A request id
that does not split into exactly two parts (a colon inside the metric or the
asset) makes the source raise an uncaught ValueError out of
`get_metrics_batch`; this total function skips such an item instead —
theorems about the batch path must exclude those inputs by hypothesis
(see the identifier round-trip hypothesis of C8). -/
def freshCacheItems (fresh : List (String × Option Value)) :
    List (String × Value × List (String × String) × Option Nat) :=
  fresh.foldl
    (fun acc e =>
      match e.2 with
      | some v =>
        match splitOnChar ':' e.1 with
        | [metric, asset] =>
            acc ++ [("metric_" ++ metric, v, [("asset", asset), ("metric", metric)], none)]
        | _ => acc
      | none => acc)
    []

/-- `MetricRegistry.get_metrics_batch`: cache check, deduplication, grouping,
per-group provider execution, cache write-back, merge. -/
def get_metrics_batch (loaders : Loaders) (now : String) (st : RegState)
    (requests : List Req) (use_cache : Bool) :
    List (String × Option Value) × RegState :=
  if requests.isEmpty then ([], st)
  else
    let s1 :=
      if use_cache then
        let (cached, c1) := st.cache.get_batch (optimize_cache_keys requests)
        let (results, remaining) := splitByCache cached requests
        (results, remaining, c1)
      else (([] : List (String × Option Value)), requests, st.cache)
    let (results, remaining, cache1) := s1
    if remaining.isEmpty then (results, { st with cache := cache1 })
    else
      let (unique, _rmap) := detect_redundant_requests remaining
      let groups := group_by_provider unique st.providers
      let (fresh, provs, _trace) := execute_provider_batches loaders now groups st.providers
      let cache2 :=
        if use_cache && !fresh.isEmpty then
          let items := freshCacheItems fresh
          if !items.isEmpty then (cache1.set_batch items).2 else cache1
        else cache1
      (dupdate results fresh, ⟨provs, cache2⟩)

/-- The loader-invocation trace of one `get_metrics_batch` call (which
requests actually reached a provider's loader, and on which provider). -/
def batchTrace (loaders : Loaders) (now : String) (st : RegState)
    (requests : List Req) (use_cache : Bool) : List (String × Req) :=
  if requests.isEmpty then []
  else
    let remaining :=
      if use_cache then
        (splitByCache (st.cache.get_batch (optimize_cache_keys requests)).1 requests).2
      else requests
    if remaining.isEmpty then []
    else
      let (unique, _rmap) := detect_redundant_requests remaining
      let groups := group_by_provider unique st.providers
      (execute_provider_batches loaders now groups st.providers).2.2


/-! ### Association-list (dict) lemmas -/

theorem dlookup_dinsert_self {α : Type} (d : List (String × α)) (k : String) (v : α) :
    dlookup (dinsert d k v) k = some v := by
  induction d with
  | nil => simp [dinsert, dlookup]
  | cons e d ih =>
    by_cases h : e.1 == k
    · simp [dinsert, h, dlookup]
    · simpa [dinsert, h, dlookup] using ih

theorem dlookup_dinsert_ne {α : Type} (d : List (String × α)) (k k' : String) (v : α)
    (h : k' ≠ k) : dlookup (dinsert d k v) k' = dlookup d k' := by
  have hkk : (k == k') = false := beq_eq_false_iff_ne.mpr (Ne.symm h)
  induction d with
  | nil => simp [dinsert, dlookup, List.find?, hkk]
  | cons e d ih =>
    by_cases he : e.1 == k
    · have he' : e.1 = k := by simpa using he
      simp [dinsert, he, dlookup, List.find?, he', hkk]
    · by_cases he2 : e.1 == k'
      · simp [dinsert, he, dlookup, List.find?, he2]
      · simpa [dinsert, he, dlookup, List.find?, he2] using ih

theorem dlookup_isSome_dinsert {α : Type} (d : List (String × α)) (k k' : String) (v : α)
    (h : (dlookup d k').isSome) : (dlookup (dinsert d k v) k').isSome := by
  by_cases hk : k' = k
  · subst hk; simp [dlookup_dinsert_self]
  · rwa [dlookup_dinsert_ne d k k' v hk]

theorem dlookup_isSome_dupdate_left {α : Type} (d d2 : List (String × α)) (k : String)
    (h : (dlookup d k).isSome) : (dlookup (dupdate d d2) k).isSome := by
  induction d2 generalizing d with
  | nil => simpa [dupdate] using h
  | cons e d2 ih =>
    simpa [dupdate] using ih (dinsert d e.1 e.2) (dlookup_isSome_dinsert d e.1 k e.2 h)

theorem dlookup_isSome_dupdate_right {α : Type} (d d2 : List (String × α)) (k : String)
    (h : (dlookup d2 k).isSome) : (dlookup (dupdate d d2) k).isSome := by
  induction d2 generalizing d with
  | nil => simp [dlookup] at h
  | cons e d2 ih =>
    by_cases hk : e.1 == k
    · have he : e.1 = k := by simpa using hk
      have : (dlookup (dinsert d e.1 e.2) k).isSome := by
        rw [he]; simp [dlookup_dinsert_self]
      simpa [dupdate] using dlookup_isSome_dupdate_left (dinsert d e.1 e.2) d2 k this
    · have h' : (dlookup d2 k).isSome := by
        simpa [dlookup, List.find?, hk] using h
      simpa [dupdate] using ih (dinsert d e.1 e.2) h'

/-! ### C2 — provider health-state machine -/

theorem healthInv_applyOp (p : Provider) (op : HealthOp)
    (h : 3 ≤ (applyHealthOp p op).failure_count) :
    (applyHealthOp p op).is_healthy = false := by
  cases op with
  | success now => simp [applyHealthOp, Provider.record_success] at h
  | reset => simp [applyHealthOp, Provider.reset_health] at h
  | failure =>
    simp only [applyHealthOp, Provider.record_failure] at h ⊢
    simp only [if_pos h]

theorem healthInv_run (p : Provider)
    (hp : 3 ≤ p.failure_count → p.is_healthy = false) (ops : List HealthOp) :
    3 ≤ (runHealthOps p ops).failure_count → (runHealthOps p ops).is_healthy = false := by
  induction ops generalizing p with
  | nil => exact hp
  | cons op ops ih =>
    have hstep : runHealthOps p (op :: ops) = runHealthOps (applyHealthOp p op) ops := rfl
    rw [hstep]
    exact ih _ (healthInv_applyOp p op)

/-- **C2**: starting from the initial provider state (`failure_count = 0`,
`healthy = true`), after every sequence of `record_success` / `record_failure`
/ `reset_health` calls, `is_healthy` is false whenever `failure_count ≥ 3`;
moreover `record_success` unconditionally zeroes the count and marks healthy,
`record_failure` increments the count by one and never flips health to
healthy, and `reset_health` zeroes the count and marks healthy from any
state. -/
theorem C2_provider_health_state (name : String) (priority : Int)
    (metrics : List String) (rak : Bool) (ops : List HealthOp)
    (p : Provider) (now : String) :
    (3 ≤ (runHealthOps (mkProvider name priority metrics rak) ops).failure_count →
      (runHealthOps (mkProvider name priority metrics rak) ops).is_healthy = false)
    ∧ ((p.record_success now).failure_count = 0 ∧ (p.record_success now).is_healthy = true)
    ∧ ((p.record_failure).failure_count = p.failure_count + 1
        ∧ ((p.record_failure).is_healthy = true → p.is_healthy = true))
    ∧ ((p.reset_health).failure_count = 0 ∧ (p.reset_health).is_healthy = true) := by
  refine ⟨healthInv_run _ (by simp [mkProvider]) ops, ⟨rfl, rfl⟩, ⟨rfl, ?_⟩, ⟨rfl, rfl⟩⟩
  intro h
  by_cases h3 : 3 ≤ p.failure_count + 1
  · simp [Provider.record_failure, h3] at h
  · simpa [Provider.record_failure, h3] using h

/-- Witness for C2: three consecutive failures from the initial state leave
the provider unhealthy. -/
theorem C2_provider_health_state_witness :
    (runHealthOps (mkProvider "G" 1 ["price"]) [.failure, .failure, .failure]).is_healthy
      = false :=
  (C2_provider_health_state "G" 1 ["price"] false [.failure, .failure, .failure]
      (mkProvider "G" 1 ["price"]) "t").1 (by decide)

/-! ### C3 / C10 — TTL policy -/

/-- The market-condition adjustments of `get_ttl` agree with the spec's
multiplicative formula for every base TTL. -/
theorem ttl_adjust_eq (b : Nat) (mh hv : Bool) :
    (if hv then max ((if mh then b else b * 2) / 2) 5 else (if mh then b else b * 2))
    = (if hv then max (b * (if mh then 1 else 2) / (if hv then 2 else 1)) 5
       else b * (if mh then 1 else 2) / (if hv then 2 else 1)) := by
  cases mh <;> cases hv <;> simp

/-- **C3**: for every data-type tag and market-condition booleans, `get_ttl`
computes the spec's formula — base TTL of the tag's volatility class (MEDIUM
when the tag is unmapped), doubled off-hours, halved with a 5-second floor in
high-volatility periods, the two adjustments composing multiplicatively with
the floor last — and in particular
`resolve_ttl("network_metrics", false, false) = 600`. -/
theorem C3_resolve_ttl :
    (∀ (tag : String) (mh hv : Bool), get_ttl tag mh hv = resolve_ttl_spec tag mh hv)
    ∧ get_ttl "network_metrics" false false = 600 := by
  refine ⟨fun tag mh hv => ?_, by decide⟩
  exact ttl_adjust_eq (TTL_MAPPING ((volatilityOf tag).getD .medium)) mh hv

/-- Lower bounds of the market-condition adjustments for any base TTL of at
least 10 seconds. -/
theorem ttl_adjust_bounds (b : Nat) (mh hv : Bool) (hb : 10 ≤ b) :
    5 ≤ (if hv then max ((if mh then b else b * 2) / 2) 5 else (if mh then b else b * 2))
    ∧ 10 ≤ (if mh then b else b * 2) := by
  cases mh <;> cases hv <;> simp <;> omega

/-- **C10**: `resolve_ttl` always returns at least 5 seconds, and at least 10
seconds whenever `high_volatility_period` is false, for every tag (mapped or
not) and every market-hours flag. -/
theorem C10_ttl_floor (tag : String) (mh hv : Bool) :
    5 ≤ get_ttl tag mh hv ∧ 10 ≤ get_ttl tag mh false := by
  have hb : 10 ≤ TTL_MAPPING ((volatilityOf tag).getD .medium) := by
    cases (volatilityOf tag).getD .medium <;> simp [TTL_MAPPING]
  exact ⟨(ttl_adjust_bounds (TTL_MAPPING ((volatilityOf tag).getD .medium)) mh hv hb).1,
         (ttl_adjust_bounds (TTL_MAPPING ((volatilityOf tag).getD .medium)) mh false hb).2⟩

/-! ### C6 / C7 — cache manager -/

/-- A cache manager whose backend raises on every operation. -/
def failingCache : CacheManager :=
  { cache_enabled := true, backend := { store := [], getFails := true, setFails := true },
    hits := 0, misses := 0, sets := 0, batch_requests := 0, batch_hits := 0,
    now := "T0", market_hours := true, high_volatility := false }

/-- A cache manager with an empty, healthy backend. -/
def workingCache : CacheManager :=
  { cache_enabled := true, backend := { store := [], getFails := false, setFails := false },
    hits := 0, misses := 0, sets := 0, batch_requests := 0, batch_hits := 0,
    now := "T0", market_hours := true, high_volatility := false }

/-- **C6**: backend failures are absorbed — for every endpoint, params and
value, a raising backend read makes `get` return a miss, a raising backend
write makes `set` return `false`, and a disabled cache (the unreachable-at-init
case) makes `get` miss and `set` return `false`; `get` and `set` are total, so
no backend failure is ever raised to the caller. -/
theorem C6_cache_failures_absorbed (m : CacheManager) (e : String)
    (ps : List (String × String)) (v : Value) (t : Option Nat) :
    (m.backend.getFails = true → (CacheManager.get m e ps).1 = none)
    ∧ (m.backend.setFails = true → (CacheManager.set m e v ps t).1 = false)
    ∧ (m.cache_enabled = false →
        (CacheManager.get m e ps).1 = none ∧ (CacheManager.set m e v ps t).1 = false) := by
  refine ⟨fun h => ?_, fun h => ?_, fun h => ?_⟩
  · by_cases he : m.cache_enabled <;>
      simp [CacheManager.get, Backend.read, he, h]
  · by_cases he : m.cache_enabled <;>
      simp [CacheManager.set, Backend.setex, he, h]
  · exact ⟨by simp [CacheManager.get, h], by simp [CacheManager.set, h]⟩

/-- Witness for C6: on the concrete failing backend, `get` misses and `set`
reports failure. -/
theorem C6_cache_failures_absorbed_witness :
    (CacheManager.get failingCache "price_data" [("asset", "BTC")]).1 = none
    ∧ (CacheManager.set failingCache "price_data" (.vstr "1") [("asset", "BTC")] none).1
      = false := by
  have h := C6_cache_failures_absorbed failingCache "price_data" [("asset", "BTC")]
    (.vstr "1") none
  exact ⟨h.1 rfl, h.2.1 rfl⟩

/-- **C7 counterexample**: on a healthy empty cache, `set("price_data", "42",
{asset: BTC})` succeeds, yet the immediate `get` returns the
metadata-carrying entry object — not a value equal to `"42"` — refuting the
claim that `get` returns a value equal to the one passed to `set`. -/
theorem C7_counterexample :
    (CacheManager.set workingCache "price_data" (.vstr "42") [("asset", "BTC")] none).1 = true
    ∧ ((CacheManager.set workingCache "price_data" (.vstr "42") [("asset", "BTC")] none).2.get
        "price_data" [("asset", "BTC")]).1 ≠ some (.vstr "42") := by
  decide

/-- **C7 amended**: a successful `set(e, v, p)` followed immediately (no TTL
expiry is modelled) by `get(e, p)` on a backend whose reads do not fail
returns the stored entry object, whose `data` field equals `v`. -/
theorem C7_cache_round_trip (m : CacheManager) (e : String) (v : Value)
    (ps : List (String × String)) (t : Option Nat)
    (hset : (CacheManager.set m e v ps t).1 = true)
    (hget : m.backend.getFails = false) :
    ((CacheManager.set m e v ps t).2.get e ps).1
      = some (mkCacheEntry m e v ps (m.resolveSetTtl e ps t))
    ∧ entryData (mkCacheEntry m e v ps (m.resolveSetTtl e ps t)) = v := by
  refine ⟨?_, rfl⟩
  by_cases hen : m.cache_enabled
  · by_cases hsf : m.backend.setFails
    · simp [CacheManager.set, Backend.setex, hen, hsf] at hset
    · simp [CacheManager.set, Backend.setex, hen, hsf, CacheManager.get, Backend.read,
            hget, dlookup_dinsert_self]
  · simp [CacheManager.set, hen] at hset

/-- Witness for C7 amended: concrete round trip through the healthy cache. -/
theorem C7_cache_round_trip_witness :
    ((CacheManager.set workingCache "live_price" (.vint 7) [] none).2.get "live_price" []).1
      = some (mkCacheEntry workingCache "live_price" (.vint 7) []
          (workingCache.resolveSetTtl "live_price" [] none)) :=
  (C7_cache_round_trip workingCache "live_price" (.vint 7) [] none (by decide) rfl).1

/-! ### C1 — get_metric fallback -/

instance : IsTotal Provider provLE := ⟨by
  intro a b
  unfold provLE
  omega⟩

instance : IsTrans Provider provLE := ⟨by
  intro a b c hab hbc
  unfold provLE at *
  omega⟩

def namesOf (ps : List Provider) : List String := ps.map (·.name)

theorem name_keep_updateProv (ps : List Provider) (n : String) (f : Provider → Provider)
    (hf : ∀ p, (f p).name = p.name) :
    namesOf (updateProv ps n f) = namesOf ps := by
  unfold namesOf updateProv
  rw [List.map_map]
  apply List.map_congr_left
  intro p _
  by_cases h : p.name = n
  · simp [h, hf p]
  · simp [h]

theorem namesOf_bumpCalls (ps : List Provider) (n : String) :
    namesOf (bumpCalls ps n) = namesOf ps :=
  name_keep_updateProv ps n (fun p => { p with calls := p.calls + 1 }) (fun _ => rfl)

theorem namesOf_record_failure (ps : List Provider) (n : String) :
    namesOf (updateProv (bumpCalls ps n) n Provider.record_failure) = namesOf ps := by
  rw [name_keep_updateProv (bumpCalls ps n) n Provider.record_failure (fun _ => rfl),
      namesOf_bumpCalls]

theorem namesOf_record_success (ps : List Provider) (n : String) (now : String) :
    namesOf (updateProv (bumpCalls ps n) n (fun q => q.record_success now)) = namesOf ps := by
  rw [name_keep_updateProv (bumpCalls ps n) n (fun q => q.record_success now) (fun _ => rfl),
      namesOf_bumpCalls]

theorem findProv_isSome_of_mem (ps : List Provider) (n : String) (h : n ∈ namesOf ps) :
    (findProv ps n).isSome := by
  rw [findProv, List.find?_isSome]
  rcases List.mem_map.mp h with ⟨p, hp, rfl⟩
  exact ⟨p, hp, by simp⟩

/-- Relational transcription of the spec's fallback sentence for `get_metric`:
providers are tried in the given order; the first non-empty result is returned
immediately after `record_success` on that provider, with no further loader
calls; a raising loader records a failure and iteration continues; an empty
result continues; when the order is exhausted the call yields `none`. -/
inductive FallbackRun (loaders : Loaders) (now metric asset : String) :
    List String → List Provider → Option Value × List Provider → Prop where
  | exhausted (ps : List Provider) :
      FallbackRun loaders now metric asset [] ps (none, ps)
  | firstSuccess (n : String) (rest : List String) (ps : List Provider)
      (p : Provider) (r : Option Value)
      (hfind : findProv ps n = some p)
      (hload : loaders n p.calls metric asset = .returns r)
      (hne : nonEmptyResult r = true) :
      FallbackRun loaders now metric asset (n :: rest) ps
        (r, updateProv (bumpCalls ps n) n (fun q => q.record_success now))
  | raisedSkip (n : String) (rest : List String) (ps : List Provider)
      (p : Provider) (out : Option Value × List Provider)
      (hfind : findProv ps n = some p)
      (hload : loaders n p.calls metric asset = .raises)
      (hrest : FallbackRun loaders now metric asset rest
        (updateProv (bumpCalls ps n) n Provider.record_failure) out) :
      FallbackRun loaders now metric asset (n :: rest) ps out
  | emptySkip (n : String) (rest : List String) (ps : List Provider)
      (p : Provider) (r : Option Value) (out : Option Value × List Provider)
      (hfind : findProv ps n = some p)
      (hload : loaders n p.calls metric asset = .returns r)
      (hne : nonEmptyResult r = false)
      (hrest : FallbackRun loaders now metric asset rest (bumpCalls ps n) out) :
      FallbackRun loaders now metric asset (n :: rest) ps out

theorem tryProviders_fallbackRun (loaders : Loaders) (now metric asset : String)
    (order : List String) (ps : List Provider)
    (hnames : ∀ n ∈ order, n ∈ namesOf ps) :
    FallbackRun loaders now metric asset order ps
      (tryProviders loaders now metric asset order ps) := by
  induction order generalizing ps with
  | nil => exact .exhausted ps
  | cons n rest ih =>
    obtain ⟨p, hfind⟩ := Option.isSome_iff_exists.mp
      (findProv_isSome_of_mem ps n (hnames n (by simp)))
    have hrest_names : ∀ m ∈ rest, m ∈ namesOf ps := fun m hm => hnames m (by simp [hm])
    cases hl : loaders n p.calls metric asset with
    | raises =>
      have hres : tryProviders loaders now metric asset (n :: rest) ps
          = tryProviders loaders now metric asset rest
              (updateProv (bumpCalls ps n) n Provider.record_failure) := by
        simp [tryProviders, hfind, hl]
      rw [hres]
      refine .raisedSkip n rest ps p _ hfind hl (ih _ ?_)
      intro m hm
      rw [namesOf_record_failure]
      exact hrest_names m hm
    | returns r =>
      cases hne : nonEmptyResult r with
      | true =>
        have hres : tryProviders loaders now metric asset (n :: rest) ps
            = (r, updateProv (bumpCalls ps n) n (fun q => q.record_success now)) := by
          simp [tryProviders, hfind, hl, hne]
        rw [hres]
        exact .firstSuccess n rest ps p r hfind hl hne
      | false =>
        have hres : tryProviders loaders now metric asset (n :: rest) ps
            = tryProviders loaders now metric asset rest (bumpCalls ps n) := by
          simp [tryProviders, hfind, hl, hne]
        rw [hres]
        refine .emptySkip n rest ps p r _ hfind hl hne (ih _ ?_)
        intro m hm
        rw [namesOf_bumpCalls]
        exact hrest_names m hm

theorem eligible_names_sub (ps : List Provider) (metric : String) :
    ∀ n ∈ (eligibleProviders ps metric).map (·.name), n ∈ namesOf ps := by
  intro n hn
  rcases List.mem_map.mp hn with ⟨p, hp, rfl⟩
  have hp' : p ∈ ps.filter (fun p => p.can_provide metric) :=
    (List.perm_insertionSort provLE _).mem_iff.mp hp
  exact List.mem_map.mpr ⟨p, List.mem_of_mem_filter hp', rfl⟩

/-- **C1**: `get_metric` tries exactly the providers whose `can_provide` holds
(a permutation of the filtered registry), in an order sorted by
`(priority, failure_count)`, and its run satisfies the fallback specification
`FallbackRun`: first non-empty result wins after `record_success` with no
further loader calls, raising loaders record a failure and are skipped, an
exhausted (or empty) provider list yields `none`.  `get_metric` is a total
function, so it never raises to the caller. -/
theorem C1_get_metric_fallback (loaders : Loaders) (now : String)
    (ps : List Provider) (metric asset : String) :
    (eligibleProviders ps metric).Perm (ps.filter (fun p => p.can_provide metric))
    ∧ (eligibleProviders ps metric).Sorted provLE
    ∧ FallbackRun loaders now metric asset ((eligibleProviders ps metric).map (·.name)) ps
        (get_metric loaders now ps metric asset) :=
  ⟨List.perm_insertionSort provLE _,
   List.sorted_insertionSort provLE _,
   tryProviders_fallbackRun loaders now metric asset _ ps (eligible_names_sub ps metric)⟩

/-! ### C4 — empty results are not recorded as failures -/

/-- **C4 counterexample**: a single eligible provider whose loader returns
`None` (an empty result) without raising: after `get_metric` the loader was
invoked once (`calls = 1`) yet `failure_count` is still 0 and the provider is
still healthy — `record_failure` was not called, contradicting the claim that
an empty result is recorded as a failure exactly like an exception. -/
theorem C4_counterexample :
    (get_metric (fun _ _ _ _ => .returns none) "t" [mkProvider "P" 1 ["price"]]
        "price" "BTC").2
      = [{ mkProvider "P" 1 ["price"] with calls := 1 }]
    ∧ ({ mkProvider "P" 1 ["price"] with calls := 1 } : Provider).failure_count = 0
    ∧ ({ mkProvider "P" 1 ["price"] with calls := 1 } : Provider).is_healthy = true := by
  decide

/-- **C4 amended**: when a provider's loader returns an empty result without
raising, the fallback iteration continues to the next eligible provider with
only that provider's invocation counter bumped — every provider's
`failure_count` and health are left unchanged (`record_failure` runs only when
the loader raises). -/
theorem C4_empty_result_no_failure (loaders : Loaders) (now metric asset n : String)
    (rest : List String) (ps : List Provider) (p : Provider) (r : Option Value)
    (hfind : findProv ps n = some p)
    (hload : loaders n p.calls metric asset = .returns r)
    (hempty : nonEmptyResult r = false) :
    tryProviders loaders now metric asset (n :: rest) ps
      = tryProviders loaders now metric asset rest (bumpCalls ps n)
    ∧ (bumpCalls ps n).map (fun q => (q.failure_count, q.is_healthy))
      = ps.map (fun q => (q.failure_count, q.is_healthy)) := by
  constructor
  · simp [tryProviders, hfind, hload, hempty]
  · unfold bumpCalls updateProv
    rw [List.map_map]
    apply List.map_congr_left
    intro q _
    by_cases h : q.name = n
    · simp [h]
    · simp [h]

/-- Witness for C4 amended, at a concrete one-provider registry whose loader
returns `None`. -/
theorem C4_empty_result_no_failure_witness :
    tryProviders (fun _ _ _ _ => .returns none) "t" "price" "BTC" ["P"]
        [mkProvider "P" 1 ["price"]]
      = tryProviders (fun _ _ _ _ => .returns none) "t" "price" "BTC" []
          (bumpCalls [mkProvider "P" 1 ["price"]] "P") :=
  (C4_empty_result_no_failure (fun _ _ _ _ => .returns none) "t" "price" "BTC" "P" []
      [mkProvider "P" 1 ["price"]] (mkProvider "P" 1 ["price"]) none
      (by decide) (by decide) (by decide)).1

/-! ### C5 — the two-provider scenario -/

/-- Provider A of the spec's scenario. -/
def providerA : Provider := mkProvider "A" 1 ["price"]

/-- Provider B of the spec's scenario. -/
def providerB : Provider := mkProvider "B" 2 ["price"]

/-- Scenario loaders: A raises on its first three invocations and succeeds
afterwards; B always succeeds. -/
def loadersAB : Loaders := fun n k _ _ =>
  if n == "A" then (if k < 3 then .raises else .returns (some (.vstr "Aval")))
  else .returns (some (.vstr "Bval"))

def c5call1 : Option Value × List Provider :=
  get_metric loadersAB "t" [providerA, providerB] "price" "BTC"

def c5call2 : Option Value × List Provider :=
  get_metric loadersAB "t" c5call1.2 "price" "BTC"

def c5call3 : Option Value × List Provider :=
  get_metric loadersAB "t" c5call2.2 "price" "BTC"

def c5call4 : Option Value × List Provider :=
  get_metric loadersAB "t" c5call3.2 "price" "BTC"

/-- **C5 counterexample**: in the spec's scenario the very first
`get_metric("price","BTC")` call already falls back to B and returns B's
value — it does not yield null as the claim asserts. -/
theorem C5_counterexample :
    c5call1.1 = some (.vstr "Bval") ∧ c5call1.1 ≠ none := by decide

/-- **C5 amended**: in the scenario, every one of the four calls returns B's
value: each of the first three records one failure against A (A unhealthy
after the third), and the fourth call excludes the now-unhealthy A entirely
(A's loader is never invoked again: its state is unchanged and its invocation
count stays 3) and still returns B's value. -/
theorem C5_amended_scenario :
    (c5call1.1 = some (.vstr "Bval") ∧ c5call2.1 = some (.vstr "Bval")
      ∧ c5call3.1 = some (.vstr "Bval") ∧ c5call4.1 = some (.vstr "Bval"))
    ∧ ((findProv c5call1.2 "A").map (fun p => (p.failure_count, p.is_healthy))
        = some (1, true)
      ∧ (findProv c5call2.2 "A").map (fun p => (p.failure_count, p.is_healthy))
        = some (2, true)
      ∧ (findProv c5call3.2 "A").map (fun p => (p.failure_count, p.is_healthy))
        = some (3, false))
    ∧ (findProv c5call4.2 "A" = findProv c5call3.2 "A"
      ∧ (findProv c5call4.2 "A").map (fun p => p.calls) = some 3) := by
  decide

/-! ### C8 / C9 — batch fetch: structural lemmas -/

theorem splitByCacheAux_mem (cached : List (String × Option Value)) (reqs : List Req)
    (results : List (String × Option Value)) (remaining : List Req) (r : Req)
    (h : (dlookup results (requestKey r)).isSome ∨ r ∈ remaining ∨ r ∈ reqs) :
    (dlookup (splitByCacheAux cached results remaining reqs).1 (requestKey r)).isSome
    ∨ r ∈ (splitByCacheAux cached results remaining reqs).2 := by
  induction reqs generalizing results remaining with
  | nil =>
    rcases h with h | h | h
    · exact Or.inl h
    · exact Or.inr h
    · simp at h
  | cons q rs ih =>
    have hnext : ∀ (res' : List (String × Option Value)) (rem' : List Req),
        ((dlookup res' (requestKey r)).isSome ∨ r ∈ rem' ∨ r ∈ rs) →
        (dlookup (splitByCacheAux cached res' rem' rs).1 (requestKey r)).isSome
        ∨ r ∈ (splitByCacheAux cached res' rem' rs).2 := fun res' rem' h' => ih res' rem' h'
    cases hc : dlookup cached (batchCacheId q) with
    | none =>
      rw [show splitByCacheAux cached results remaining (q :: rs)
          = splitByCacheAux cached results (remaining ++ [q]) rs from by
        simp [splitByCacheAux, hc]]
      apply hnext
      rcases h with h | h | h
      · exact Or.inl h
      · exact Or.inr (Or.inl (List.mem_append_left _ h))
      · rcases List.mem_cons.mp h with rfl | h
        · exact Or.inr (Or.inl (List.mem_append_right _ (by simp)))
        · exact Or.inr (Or.inr h)
    | some ov =>
      cases ov with
      | none =>
        rw [show splitByCacheAux cached results remaining (q :: rs)
            = splitByCacheAux cached results (remaining ++ [q]) rs from by
          simp [splitByCacheAux, hc]]
        apply hnext
        rcases h with h | h | h
        · exact Or.inl h
        · exact Or.inr (Or.inl (List.mem_append_left _ h))
        · rcases List.mem_cons.mp h with rfl | h
          · exact Or.inr (Or.inl (List.mem_append_right _ (by simp)))
          · exact Or.inr (Or.inr h)
      | some entry =>
        rw [show splitByCacheAux cached results remaining (q :: rs)
            = splitByCacheAux cached
                (dinsert results (requestKey q) (some (entryData entry))) remaining rs from by
          simp [splitByCacheAux, hc]]
        apply hnext
        rcases h with h | h | h
        · exact Or.inl (dlookup_isSome_dinsert results (requestKey q) (requestKey r) _ h)
        · exact Or.inr (Or.inl h)
        · rcases List.mem_cons.mp h with rfl | h
          · exact Or.inl (by simp [dlookup_dinsert_self])
          · exact Or.inr (Or.inr h)

theorem splitByCacheAux_sub (cached : List (String × Option Value)) (reqs : List Req)
    (results : List (String × Option Value)) (remaining : List Req) :
    ∀ r ∈ (splitByCacheAux cached results remaining reqs).2, r ∈ remaining ∨ r ∈ reqs := by
  induction reqs generalizing results remaining with
  | nil => intro r hr; exact Or.inl hr
  | cons q rs ih =>
    intro r hr
    have step : ∀ (res' : List (String × Option Value)) (rem' : List Req),
        r ∈ (splitByCacheAux cached res' rem' rs).2 → r ∈ rem' ∨ r ∈ rs :=
      fun res' rem' h' => ih res' rem' r h'
    cases hc : dlookup cached (batchCacheId q) with
    | none =>
      rw [show splitByCacheAux cached results remaining (q :: rs)
          = splitByCacheAux cached results (remaining ++ [q]) rs from by
        simp [splitByCacheAux, hc]] at hr
      rcases step _ _ hr with h | h
      · rcases List.mem_append.mp h with h | h
        · exact Or.inl h
        · simp at h; exact Or.inr (by simp [h])
      · exact Or.inr (by simp [h])
    | some ov =>
      cases ov with
      | none =>
        rw [show splitByCacheAux cached results remaining (q :: rs)
            = splitByCacheAux cached results (remaining ++ [q]) rs from by
          simp [splitByCacheAux, hc]] at hr
        rcases step _ _ hr with h | h
        · rcases List.mem_append.mp h with h | h
          · exact Or.inl h
          · simp at h; exact Or.inr (by simp [h])
        · exact Or.inr (by simp [h])
      | some entry =>
        rw [show splitByCacheAux cached results remaining (q :: rs)
            = splitByCacheAux cached
                (dinsert results (requestKey q) (some (entryData entry))) remaining rs from by
          simp [splitByCacheAux, hc]] at hr
        rcases step _ _ hr with h | h
        · exact Or.inl h
        · exact Or.inr (by simp [h])

theorem detectRedundantAux_mem (reqs : List Req) (seen : List String) (uniq : List Req)
    (rmap : List (String × String)) (r : Req)
    (h : r ∈ reqs ∨ ∃ u ∈ uniq, requestKey u = requestKey r)
    (hseen : ∀ k ∈ seen, ∃ u ∈ uniq, requestKey u = k) :
    ∃ u ∈ (detectRedundantAux seen uniq rmap reqs).1, requestKey u = requestKey r := by
  induction reqs generalizing seen uniq rmap with
  | nil =>
    rcases h with h | h
    · simp at h
    · exact h
  | cons q rs ih =>
    by_cases hs : requestKey q ∈ seen
    · rw [show detectRedundantAux seen uniq rmap (q :: rs)
          = detectRedundantAux seen uniq (dinsert rmap (requestKey q) (requestKey q)) rs from by
        simp [detectRedundantAux, hs]]
      apply ih _ _ _ _ hseen
      rcases h with h | h
      · rcases List.mem_cons.mp h with rfl | h
        · exact Or.inr (hseen _ hs)
        · exact Or.inl h
      · exact Or.inr h
    · rw [show detectRedundantAux seen uniq rmap (q :: rs)
          = detectRedundantAux (seen ++ [requestKey q]) (uniq ++ [q]) rmap rs from by
        simp [detectRedundantAux, hs]]
      apply ih
      · rcases h with h | h
        · rcases List.mem_cons.mp h with rfl | h
          · exact Or.inr ⟨r, List.mem_append_right _ (by simp), rfl⟩
          · exact Or.inl h
        · rcases h with ⟨u, hu, hk⟩
          exact Or.inr ⟨u, List.mem_append_left _ hu, hk⟩
      · intro k hk
        rcases List.mem_append.mp hk with hk | hk
        · rcases hseen k hk with ⟨u, hu, hku⟩
          exact ⟨u, List.mem_append_left _ hu, hku⟩
        · simp at hk
          exact ⟨q, List.mem_append_right _ (by simp), hk.symm⟩

theorem detectRedundantAux_sub (reqs : List Req) (seen : List String) (uniq : List Req)
    (rmap : List (String × String)) :
    ∀ u ∈ (detectRedundantAux seen uniq rmap reqs).1, u ∈ uniq ∨ u ∈ reqs := by
  induction reqs generalizing seen uniq rmap with
  | nil => intro u hu; exact Or.inl hu
  | cons q rs ih =>
    intro u hu
    by_cases hs : requestKey q ∈ seen
    · rw [show detectRedundantAux seen uniq rmap (q :: rs)
          = detectRedundantAux seen uniq (dinsert rmap (requestKey q) (requestKey q)) rs from by
        simp [detectRedundantAux, hs]] at hu
      rcases ih _ _ _ u hu with h | h
      · exact Or.inl h
      · exact Or.inr (by simp [h])
    · rw [show detectRedundantAux seen uniq rmap (q :: rs)
          = detectRedundantAux (seen ++ [requestKey q]) (uniq ++ [q]) rmap rs from by
        simp [detectRedundantAux, hs]] at hu
      rcases ih _ _ _ u hu with h | h
      · rcases List.mem_append.mp h with h | h
        · exact Or.inl h
        · simp at h; exact Or.inr (by simp [h])
      · exact Or.inr (by simp [h])

theorem addToGroup_self (groups : List (String × List Req)) (n : String) (r : Req) :
    ∃ g ∈ addToGroup groups n r, r ∈ g.2 := by
  induction groups with
  | nil => exact ⟨(n, [r]), by simp [addToGroup], by simp⟩
  | cons g gs ih =>
    by_cases h : g.1 == n
    · exact ⟨(g.1, g.2 ++ [r]), by simp [addToGroup, h], by simp⟩
    · obtain ⟨g0, hg0, hr⟩ := ih
      exact ⟨g0, by simp [addToGroup, h, hg0], hr⟩

theorem addToGroup_mono (groups : List (String × List Req)) (n : String) (r : Req)
    (g0 : String × List Req) (hg0 : g0 ∈ groups) (x : Req) (hx : x ∈ g0.2) :
    ∃ g ∈ addToGroup groups n r, x ∈ g.2 := by
  induction groups with
  | nil => simp at hg0
  | cons g gs ih =>
    by_cases h : g.1 == n
    · rcases List.mem_cons.mp hg0 with h0 | h0
      · exact ⟨(g.1, g.2 ++ [r]), by simp [addToGroup, h],
          List.mem_append_left _ (h0 ▸ hx)⟩
      · exact ⟨g0, by simp [addToGroup, h, h0], hx⟩
    · rcases List.mem_cons.mp hg0 with h0 | h0
      · exact ⟨g, by simp [addToGroup, h], h0 ▸ hx⟩
      · obtain ⟨g1, hg1, hx1⟩ := ih h0
        exact ⟨g1, by simp [addToGroup, h, hg1], hx1⟩

theorem addToGroup_names (groups : List (String × List Req)) (n : String) (r : Req) :
    ∀ g ∈ addToGroup groups n r, g.1 = n ∨ g.1 ∈ groups.map (·.1) := by
  induction groups with
  | nil => intro g hg; simp [addToGroup] at hg; simp [hg]
  | cons g0 gs ih =>
    intro g hg
    by_cases h : g0.1 == n
    · rw [show addToGroup (g0 :: gs) n r = (g0.1, g0.2 ++ [r]) :: gs from by
        simp [addToGroup, h]] at hg
      rcases List.mem_cons.mp hg with h1 | h1
      · exact Or.inr (List.mem_map.mpr ⟨g0, List.mem_cons_self g0 gs, by rw [h1]⟩)
      · exact Or.inr (List.mem_map.mpr ⟨g, List.mem_cons_of_mem g0 h1, rfl⟩)
    · rw [show addToGroup (g0 :: gs) n r = g0 :: addToGroup gs n r from by
        simp [addToGroup, h]] at hg
      rcases List.mem_cons.mp hg with h1 | h1
      · exact Or.inr (List.mem_map.mpr ⟨g0, List.mem_cons_self g0 gs, by rw [h1]⟩)
      · rcases ih g h1 with h2 | h2
        · exact Or.inl h2
        · rcases List.mem_map.mp h2 with ⟨g1, hg1, hk⟩
          exact Or.inr (List.mem_map.mpr ⟨g1, List.mem_cons_of_mem g0 hg1, hk⟩)

theorem eligibleProviders_ne_nil (providers : List Provider) (metric : String)
    (h : ∃ p ∈ providers, p.can_provide metric = true) :
    eligibleProviders providers metric ≠ [] := by
  obtain ⟨p, hp, hc⟩ := h
  have hmem : p ∈ eligibleProviders providers metric :=
    (List.perm_insertionSort provLE _).mem_iff.mpr (List.mem_filter.mpr ⟨hp, hc⟩)
  intro hnil
  rw [hnil] at hmem
  exact absurd hmem (List.not_mem_nil p)

theorem eligible_mem_providers (providers : List Provider) (metric : String)
    (p : Provider) (hp : p ∈ eligibleProviders providers metric) : p ∈ providers :=
  List.mem_of_mem_filter ((List.perm_insertionSort provLE _).mem_iff.mp hp)

theorem groupByProviderAux_mem (providers : List Provider) (reqs : List Req)
    (groups : List (String × List Req)) (r : Req)
    (helig : ∃ p ∈ providers, p.can_provide r.1 = true)
    (h : r ∈ reqs ∨ ∃ g ∈ groups, r ∈ g.2) :
    ∃ g ∈ groupByProviderAux providers groups reqs, r ∈ g.2 := by
  induction reqs generalizing groups with
  | nil =>
    rcases h with h | h
    · simp at h
    · exact h
  | cons q rs ih =>
    cases he : eligibleProviders providers q.1 with
    | nil =>
      rw [show groupByProviderAux providers groups (q :: rs)
          = groupByProviderAux providers groups rs from by simp [groupByProviderAux, he]]
      apply ih
      rcases h with h | h
      · rcases List.mem_cons.mp h with h0 | h0
        · exact absurd he (by rw [← h0] at he ⊢; exact eligibleProviders_ne_nil providers r.1 helig)
        · exact Or.inl h0
      · exact Or.inr h
    | cons best bs =>
      rw [show groupByProviderAux providers groups (q :: rs)
          = groupByProviderAux providers (addToGroup groups best.name q) rs from by
        simp [groupByProviderAux, he]]
      apply ih
      rcases h with h | h
      · rcases List.mem_cons.mp h with h0 | h0
        · exact Or.inr (h0 ▸ addToGroup_self groups best.name q)
        · exact Or.inl h0
      · rcases h with ⟨g0, hg0, hx⟩
        exact Or.inr (addToGroup_mono groups best.name q g0 hg0 r hx)

theorem groupByProviderAux_names (providers : List Provider) (reqs : List Req)
    (groups : List (String × List Req))
    (h : ∀ g ∈ groups, g.1 ∈ namesOf providers) :
    ∀ g ∈ groupByProviderAux providers groups reqs, g.1 ∈ namesOf providers := by
  induction reqs generalizing groups with
  | nil => exact h
  | cons q rs ih =>
    cases he : eligibleProviders providers q.1 with
    | nil =>
      rw [show groupByProviderAux providers groups (q :: rs)
          = groupByProviderAux providers groups rs from by simp [groupByProviderAux, he]]
      exact ih groups h
    | cons best bs =>
      rw [show groupByProviderAux providers groups (q :: rs)
          = groupByProviderAux providers (addToGroup groups best.name q) rs from by
        simp [groupByProviderAux, he]]
      apply ih
      intro g hg
      rcases addToGroup_names groups best.name q g hg with h1 | h1
      · have hbest : best ∈ providers :=
          eligible_mem_providers providers q.1 best (by rw [he]; simp)
        rw [h1]
        exact List.mem_map.mpr ⟨best, hbest, rfl⟩
      · rcases List.mem_map.mp h1 with ⟨g0, hg0, hkey⟩
        rw [← hkey]
        exact h g0 hg0

theorem namesOf_runBatchReqs (loaders : Loaders) (now n : String) (reqs : List Req)
    (acc : List (String × Option Value) × List Provider × List (String × Req)) :
    namesOf (runBatchReqs loaders now n reqs acc).2.1 = namesOf acc.2.1 := by
  induction reqs generalizing acc with
  | nil => rfl
  | cons q rs ih =>
    obtain ⟨results, ps, trace⟩ := acc
    cases hf : findProv ps n with
    | none =>
      rw [show runBatchReqs loaders now n (q :: rs) (results, ps, trace)
          = runBatchReqs loaders now n rs (results, ps, trace) from by
        simp [runBatchReqs, hf]]
      exact ih _
    | some p =>
      cases hl : loaders n p.calls q.1 q.2 with
      | raises =>
        rw [show runBatchReqs loaders now n (q :: rs) (results, ps, trace)
            = runBatchReqs loaders now n rs (dinsert results (requestKey q) none,
                updateProv (bumpCalls ps n) n Provider.record_failure, trace ++ [(n, q)])
            from by simp [runBatchReqs, hf, hl]]
        rw [ih _]
        exact namesOf_record_failure ps n
      | returns ropt =>
        cases ropt with
        | none =>
          rw [show runBatchReqs loaders now n (q :: rs) (results, ps, trace)
              = runBatchReqs loaders now n rs (dinsert results (requestKey q) none,
                  bumpCalls ps n, trace ++ [(n, q)])
              from by simp [runBatchReqs, hf, hl]]
          rw [ih _]
          exact namesOf_bumpCalls ps n
        | some v =>
          rw [show runBatchReqs loaders now n (q :: rs) (results, ps, trace)
              = runBatchReqs loaders now n rs (dinsert results (requestKey q) (some v),
                  updateProv (bumpCalls ps n) n (fun x => x.record_success now),
                  trace ++ [(n, q)])
              from by simp [runBatchReqs, hf, hl]]
          rw [ih _]
          exact namesOf_record_success ps n now

theorem runBatchReqs_key (loaders : Loaders) (now n : String) (reqs : List Req)
    (acc : List (String × Option Value) × List Provider × List (String × Req)) (r : Req)
    (hn : n ∈ namesOf acc.2.1)
    (h : r ∈ reqs ∨ (dlookup acc.1 (requestKey r)).isSome) :
    (dlookup (runBatchReqs loaders now n reqs acc).1 (requestKey r)).isSome := by
  induction reqs generalizing acc with
  | nil =>
    rcases h with h | h
    · simp at h
    · exact h
  | cons q rs ih =>
    obtain ⟨results, ps, trace⟩ := acc
    obtain ⟨p, hf⟩ := Option.isSome_iff_exists.mp (findProv_isSome_of_mem ps n hn)
    cases hl : loaders n p.calls q.1 q.2 with
    | raises =>
      rw [show runBatchReqs loaders now n (q :: rs) (results, ps, trace)
          = runBatchReqs loaders now n rs (dinsert results (requestKey q) none,
              updateProv (bumpCalls ps n) n Provider.record_failure, trace ++ [(n, q)])
          from by simp [runBatchReqs, hf, hl]]
      apply ih
      · show n ∈ namesOf (updateProv (bumpCalls ps n) n Provider.record_failure)
        rw [namesOf_record_failure]
        exact hn
      · rcases h with h | h
        · rcases List.mem_cons.mp h with h0 | h0
          · exact Or.inr (by rw [h0]; simp [dlookup_dinsert_self])
          · exact Or.inl h0
        · exact Or.inr (dlookup_isSome_dinsert results (requestKey q) (requestKey r) none h)
    | returns ropt =>
      cases ropt with
      | none =>
        rw [show runBatchReqs loaders now n (q :: rs) (results, ps, trace)
            = runBatchReqs loaders now n rs (dinsert results (requestKey q) none,
                bumpCalls ps n, trace ++ [(n, q)])
            from by simp [runBatchReqs, hf, hl]]
        apply ih
        · show n ∈ namesOf (bumpCalls ps n)
          rw [namesOf_bumpCalls]
          exact hn
        · rcases h with h | h
          · rcases List.mem_cons.mp h with h0 | h0
            · exact Or.inr (by rw [h0]; simp [dlookup_dinsert_self])
            · exact Or.inl h0
          · exact Or.inr (dlookup_isSome_dinsert results (requestKey q) (requestKey r) none h)
      | some v =>
        rw [show runBatchReqs loaders now n (q :: rs) (results, ps, trace)
            = runBatchReqs loaders now n rs (dinsert results (requestKey q) (some v),
                updateProv (bumpCalls ps n) n (fun x => x.record_success now),
                trace ++ [(n, q)])
            from by simp [runBatchReqs, hf, hl]]
        apply ih
        · show n ∈ namesOf (updateProv (bumpCalls ps n) n (fun x => x.record_success now))
          rw [namesOf_record_success]
          exact hn
        · rcases h with h | h
          · rcases List.mem_cons.mp h with h0 | h0
            · exact Or.inr (by rw [h0]; simp [dlookup_dinsert_self])
            · exact Or.inl h0
          · exact Or.inr (dlookup_isSome_dinsert results (requestKey q) (requestKey r) (some v) h)

theorem namesOf_runGroups (loaders : Loaders) (now : String)
    (groups : List (String × List Req))
    (acc : List (String × Option Value) × List Provider × List (String × Req)) :
    namesOf (runGroups loaders now groups acc).2.1 = namesOf acc.2.1 := by
  induction groups generalizing acc with
  | nil => rfl
  | cons g gs ih =>
    obtain ⟨results, ps, trace⟩ := acc
    cases hf : findProv ps g.1 with
    | none =>
      rw [show runGroups loaders now (g :: gs) (results, ps, trace)
          = runGroups loaders now gs (results, ps, trace) from by simp [runGroups, hf]]
      exact ih _
    | some p =>
      rw [show runGroups loaders now (g :: gs) (results, ps, trace)
          = runGroups loaders now gs
              (dupdate results (execute_provider_batch loaders now g.1 g.2 ps).1,
               (execute_provider_batch loaders now g.1 g.2 ps).2.1,
               trace ++ (execute_provider_batch loaders now g.1 g.2 ps).2.2)
          from by simp [runGroups, hf]]
      rw [ih _]
      exact namesOf_runBatchReqs loaders now g.1 g.2 ([], ps, [])

theorem runGroups_key (loaders : Loaders) (now : String)
    (groups : List (String × List Req))
    (acc : List (String × Option Value) × List Provider × List (String × Req)) (r : Req)
    (hnames : ∀ g ∈ groups, g.1 ∈ namesOf acc.2.1)
    (h : (∃ g ∈ groups, r ∈ g.2) ∨ (dlookup acc.1 (requestKey r)).isSome) :
    (dlookup (runGroups loaders now groups acc).1 (requestKey r)).isSome := by
  induction groups generalizing acc with
  | nil =>
    rcases h with ⟨g, hg, _⟩ | h
    · simp at hg
    · exact h
  | cons g gs ih =>
    obtain ⟨results, ps, trace⟩ := acc
    have hgn : g.1 ∈ namesOf ps := hnames g (List.mem_cons_self g gs)
    obtain ⟨p, hf⟩ := Option.isSome_iff_exists.mp (findProv_isSome_of_mem ps g.1 hgn)
    rw [show runGroups loaders now (g :: gs) (results, ps, trace)
        = runGroups loaders now gs
            (dupdate results (execute_provider_batch loaders now g.1 g.2 ps).1,
             (execute_provider_batch loaders now g.1 g.2 ps).2.1,
             trace ++ (execute_provider_batch loaders now g.1 g.2 ps).2.2)
        from by simp [runGroups, hf]]
    apply ih
    · intro g' hg'
      show g'.1 ∈ namesOf (execute_provider_batch loaders now g.1 g.2 ps).2.1
      rw [show (execute_provider_batch loaders now g.1 g.2 ps).2.1
          = (runBatchReqs loaders now g.1 g.2 ([], ps, [])).2.1 from rfl]
      rw [namesOf_runBatchReqs]
      exact hnames g' (List.mem_cons_of_mem g hg')
    · rcases h with ⟨g0, hg0, hx⟩ | h
      · rcases List.mem_cons.mp hg0 with h0 | h0
        · refine Or.inr (dlookup_isSome_dupdate_right results _ (requestKey r) ?_)
          exact runBatchReqs_key loaders now g.1 g.2 ([], ps, []) r hgn
            (Or.inl (h0 ▸ hx))
        · exact Or.inl ⟨g0, h0, hx⟩
      · exact Or.inr (dlookup_isSome_dupdate_left results _ (requestKey r) h)

/-- **C8 counterexample**: a batch request for a pair with no eligible
provider and no cache entry returns an *empty* map — the pair is silently
omitted (no key at all), not marked unavailable, refuting the claim that
every requested pair appears in the result. -/
theorem C8_counterexample :
    (get_metrics_batch (fun _ _ _ _ => .raises) "t"
        ⟨[mkProvider "P" 1 ["price"]], workingCache⟩ [("defi", "X")] true).1 = []
    ∧ dlookup (get_metrics_batch (fun _ _ _ _ => .raises) "t"
        ⟨[mkProvider "P" 1 ["price"]], workingCache⟩ [("defi", "X")] true).1 "defi:X"
      = none := by
  decide

/-- The shape of every value the cache itself writes: the metadata-carrying
entry object.  `wrapper['data']` exists exactly on this shape; on any other
stored value the source's `cached_results[cache_key]['data']` raises an
uncaught KeyError/TypeError out of `get_metrics_batch`. -/
def entryShaped (v : Value) : Prop :=
  ∃ d ca ep pa dt tl, v = Value.ventry d ca ep pa dt tl

theorem splitByCacheAux_hit (cached : List (String × Option Value)) (reqs : List Req)
    (results : List (String × Option Value)) (remaining : List Req) (r : Req)
    (hhit : ∃ e, dlookup cached (batchCacheId r) = some (some e))
    (h : r ∈ reqs ∨ (dlookup results (requestKey r)).isSome) :
    (dlookup (splitByCacheAux cached results remaining reqs).1 (requestKey r)).isSome := by
  induction reqs generalizing results remaining with
  | nil =>
    rcases h with h | h
    · simp at h
    · exact h
  | cons q rs ih =>
    cases hc : dlookup cached (batchCacheId q) with
    | none =>
      rw [show splitByCacheAux cached results remaining (q :: rs)
          = splitByCacheAux cached results (remaining ++ [q]) rs from by
        simp [splitByCacheAux, hc]]
      apply ih
      rcases h with h | h
      · rcases List.mem_cons.mp h with h0 | h0
        · exfalso
          obtain ⟨e, he⟩ := hhit
          rw [h0, hc] at he
          exact Option.noConfusion he
        · exact Or.inl h0
      · exact Or.inr h
    | some ov =>
      cases ov with
      | none =>
        rw [show splitByCacheAux cached results remaining (q :: rs)
            = splitByCacheAux cached results (remaining ++ [q]) rs from by
          simp [splitByCacheAux, hc]]
        apply ih
        rcases h with h | h
        · rcases List.mem_cons.mp h with h0 | h0
          · exfalso
            obtain ⟨e, he⟩ := hhit
            rw [h0, hc] at he
            simp at he
          · exact Or.inl h0
        · exact Or.inr h
      | some entry =>
        rw [show splitByCacheAux cached results remaining (q :: rs)
            = splitByCacheAux cached
                (dinsert results (requestKey q) (some (entryData entry))) remaining rs from by
          simp [splitByCacheAux, hc]]
        apply ih
        rcases h with h | h
        · rcases List.mem_cons.mp h with h0 | h0
          · exact Or.inr (by rw [h0]; simp [dlookup_dinsert_self])
          · exact Or.inl h0
        · exact Or.inr (dlookup_isSome_dinsert results (requestKey q) (requestKey r) _ h)

/-- **C8 amended**: the map returned by `get_metrics_batch` contains an entry
keyed `metric:asset` (a value or an explicit `None` marker) for every
requested pair that was a cache hit or has at least one eligible provider;
a request with no cache hit and no eligible provider is silently omitted from
the map (see the counterexample) rather than appearing as unavailable.
The hypotheses delimit the inputs on which the embedding and the source
agree by returning a map at all: every request identifier must split back
into its `(metric, asset)` components — no colons inside either, which also
makes the identifiers collision-free — since otherwise the source raises an
uncaught ValueError at `request_id.split(':')` in the cache write-back step,
and every stored cache value must be the entry shape the cache writes, since
otherwise the source raises an uncaught KeyError at
`cached_results[cache_key]['data']` on a hit. -/
theorem C8_batch_keys (loaders : Loaders) (now : String) (st : RegState)
    (requests : List Req) (use_cache : Bool) (r : Req)
    (hmem : r ∈ requests)
    (hsplit : ∀ a ∈ requests, splitOnChar ':' (requestKey a) = [a.1, a.2])
    (_hwf : ∀ kv ∈ st.cache.backend.store, entryShaped kv.2)
    (hserve : (∃ p ∈ st.providers, p.can_provide r.1 = true)
      ∨ (use_cache = true
        ∧ ∃ e, dlookup ((st.cache.get_batch (optimize_cache_keys requests)).1)
            (batchCacheId r) = some (some e))) :
    (dlookup (get_metrics_batch loaders now st requests use_cache).1
      (requestKey r)).isSome := by
  have hkeys : ∀ a ∈ requests, ∀ b ∈ requests, requestKey a = requestKey b → a = b := by
    intro a ha b hb hk
    have h1 := hsplit a ha
    have h2 := hsplit b hb
    rw [hk, h2] at h1
    simp only [List.cons.injEq, and_true] at h1
    exact Prod.ext_iff.mpr ⟨h1.1.symm, h1.2.symm⟩
  have hE : requests.isEmpty = false := by
    cases requests with
    | nil => simp at hmem
    | cons a l => rfl
  -- stage 2 produces the key when `results` already has it, or when `r`
  -- survived to `remaining` and has an eligible provider
  have hstage2 : ∀ (results : List (String × Option Value)) (remaining : List Req),
      ((dlookup results (requestKey r)).isSome
        ∨ (r ∈ remaining ∧ ∃ p ∈ st.providers, p.can_provide r.1 = true)) →
      (∀ a ∈ remaining, a ∈ requests) →
      (dlookup (dupdate results (execute_provider_batches loaders now
          (group_by_provider (detect_redundant_requests remaining).1 st.providers)
          st.providers).1) (requestKey r)).isSome := by
    intro results remaining hcase hsub
    rcases hcase with hres | ⟨hrem, helig⟩
    · exact dlookup_isSome_dupdate_left results _ (requestKey r) hres
    · -- the deduplicated list still contains `r` itself
      obtain ⟨u, hu, hku⟩ := detectRedundantAux_mem remaining [] [] [] r
        (Or.inl hrem) (by intro k hk; simp at hk)
      have hur : u = r := by
        rcases detectRedundantAux_sub remaining [] [] [] u hu with h0 | h0
        · simp at h0
        · exact hkeys u (hsub u h0) r (hsub r hrem) hku
      subst hur
      -- `u = r` lies in some provider group
      have hgroup : ∃ g ∈ group_by_provider (detect_redundant_requests remaining).1
          st.providers, u ∈ g.2 :=
        groupByProviderAux_mem st.providers (detect_redundant_requests remaining).1 [] u
          helig (Or.inl hu)
      refine dlookup_isSome_dupdate_right results _ (requestKey u) ?_
      refine runGroups_key loaders now _ ([], st.providers, []) u ?_ (Or.inl hgroup)
      intro g hg
      exact groupByProviderAux_names st.providers (detect_redundant_requests remaining).1 []
        (by intro g' hg'; simp at hg') g hg
  unfold get_metrics_batch
  rw [hE]
  cases use_cache with
  | false =>
    rcases hserve with helig | ⟨huc, _⟩
    · simp only [Bool.false_eq_true, if_false]
      rw [hE]
      simp only [Bool.false_eq_true, if_false]
      exact hstage2 [] requests (Or.inr ⟨hmem, helig⟩) (fun a ha => ha)
    · exact absurd huc (by simp)
  | true =>
    simp only [Bool.false_eq_true, if_false, if_true]
    have hsub : ∀ a ∈ (splitByCache
        ((st.cache.get_batch (optimize_cache_keys requests)).1) requests).2,
        a ∈ requests := by
      intro a ha
      rcases splitByCacheAux_sub
        ((st.cache.get_batch (optimize_cache_keys requests)).1) requests [] [] a ha
        with h0 | h0
      · simp at h0
      · exact h0
    rcases hserve with helig | ⟨_, hhit⟩
    · obtain hsplitc := splitByCacheAux_mem
        ((st.cache.get_batch (optimize_cache_keys requests)).1) requests [] [] r
        (Or.inr (Or.inr hmem))
      by_cases hrem : (splitByCache
          ((st.cache.get_batch (optimize_cache_keys requests)).1) requests).2.isEmpty
      · rw [if_pos ?_]
        · rcases hsplitc with hres | hmem2
          · exact hres
          · rw [List.isEmpty_iff] at hrem
            have hmem2x : r ∈ (splitByCache
                ((st.cache.get_batch (optimize_cache_keys requests)).1) requests).2 := hmem2
            rw [hrem] at hmem2x
            simp at hmem2x
        · exact hrem
      · rw [if_neg ?_]
        · rcases hsplitc with hres | hmem2
          · exact hstage2 _ _ (Or.inl hres) hsub
          · exact hstage2 _ _ (Or.inr ⟨hmem2, helig⟩) hsub
        · exact hrem
    · have hres : (dlookup (splitByCache
          ((st.cache.get_batch (optimize_cache_keys requests)).1) requests).1
          (requestKey r)).isSome :=
        splitByCacheAux_hit
          ((st.cache.get_batch (optimize_cache_keys requests)).1) requests [] [] r
          hhit (Or.inl hmem)
      by_cases hrem : (splitByCache
          ((st.cache.get_batch (optimize_cache_keys requests)).1) requests).2.isEmpty
      · rw [if_pos hrem]
        exact hres
      · rw [if_neg hrem]
        exact hstage2 _ _ (Or.inl hres) hsub

/-- A cache manager whose backend already holds the entry the batch path
writes for `("price", "BTC")`, so that a batch request for that pair is a
pure cache hit. -/
def hitCache : CacheManager :=
  { workingCache with
    backend :=
      { store := [(generate_cache_key "metric_price" [("asset", "BTC"), ("metric", "price")],
          .ventry (.vstr "cached") "T0" "metric_price" [("asset", "BTC"), ("metric", "price")]
            "price_data" 30)],
        getFails := false, setFails := false } }

/-- Witness for C8 amended, exercising both disjuncts of the serve condition:
a one-provider registry serving the request fresh, and a provider-less
registry serving it from a cache hit. -/
theorem C8_batch_keys_witness :
    (dlookup (get_metrics_batch (fun _ _ _ _ => .returns (some (.vstr "v"))) "t"
        ⟨[mkProvider "P" 1 ["price"]], workingCache⟩ [("price", "BTC")] true).1
      (requestKey ("price", "BTC"))).isSome
    ∧ (dlookup (get_metrics_batch (fun _ _ _ _ => .raises) "t"
        ⟨[], hitCache⟩ [("price", "BTC")] true).1
      (requestKey ("price", "BTC"))).isSome := by
  constructor
  · exact C8_batch_keys (fun _ _ _ _ => .returns (some (.vstr "v"))) "t"
      ⟨[mkProvider "P" 1 ["price"]], workingCache⟩ [("price", "BTC")] true ("price", "BTC")
      (by decide) (by decide) (by intro kv hkv; simp [workingCache] at hkv)
      (Or.inl ⟨mkProvider "P" 1 ["price"], by decide, by decide⟩)
  · exact C8_batch_keys (fun _ _ _ _ => .raises) "t"
      ⟨[], hitCache⟩ [("price", "BTC")] true ("price", "BTC")
      (by decide) (by decide)
      (by
        intro kv hkv
        simp only [hitCache, workingCache, List.mem_singleton] at hkv
        subst hkv
        exact ⟨_, _, _, _, _, _, rfl⟩)
      (Or.inr ⟨rfl,
        ⟨.ventry (.vstr "cached") "T0" "metric_price"
            [("asset", "BTC"), ("metric", "price")] "price_data" 30, by decide⟩⟩)

/-- Number of loader invocations for the pair `q` in a trace. -/
def traceCount (tr : List (String × Req)) (q : Req) : Nat :=
  tr.countP (fun c => c.2 == q)

theorem traceCount_append (t1 t2 : List (String × Req)) (q : Req) :
    traceCount (t1 ++ t2) q = traceCount t1 q + traceCount t2 q :=
  List.countP_append _ _ _

theorem runBatchReqs_traceCount (loaders : Loaders) (now n : String) (reqs : List Req)
    (acc : List (String × Option Value) × List Provider × List (String × Req)) (q : Req) :
    traceCount (runBatchReqs loaders now n reqs acc).2.2 q
      ≤ traceCount acc.2.2 q + reqs.count q := by
  induction reqs generalizing acc with
  | nil => simp [runBatchReqs]
  | cons r0 rs ih =>
    obtain ⟨results, ps, trace⟩ := acc
    have hc : (r0 :: rs).count q = rs.count q + (if r0 == q then 1 else 0) :=
      List.count_cons q r0 rs
    have hone : ∀ t : List (String × Req),
        traceCount (t ++ [(n, r0)]) q = traceCount t q + (if r0 == q then 1 else 0) := by
      intro t
      rw [traceCount_append]
      simp [traceCount, List.countP_cons]
    cases hf : findProv ps n with
    | none =>
      rw [show runBatchReqs loaders now n (r0 :: rs) (results, ps, trace)
          = runBatchReqs loaders now n rs (results, ps, trace) from by
        simp [runBatchReqs, hf]]
      have := ih (results, ps, trace)
      simp only at this ⊢
      omega
    | some p =>
      cases hl : loaders n p.calls r0.1 r0.2 with
      | raises =>
        rw [show runBatchReqs loaders now n (r0 :: rs) (results, ps, trace)
            = runBatchReqs loaders now n rs (dinsert results (requestKey r0) none,
                updateProv (bumpCalls ps n) n Provider.record_failure, trace ++ [(n, r0)])
            from by simp [runBatchReqs, hf, hl]]
        have h1 := ih (dinsert results (requestKey r0) none,
          updateProv (bumpCalls ps n) n Provider.record_failure, trace ++ [(n, r0)])
        simp only at h1 ⊢
        rw [hone trace] at h1
        omega
      | returns ropt =>
        cases ropt with
        | none =>
          rw [show runBatchReqs loaders now n (r0 :: rs) (results, ps, trace)
              = runBatchReqs loaders now n rs (dinsert results (requestKey r0) none,
                  bumpCalls ps n, trace ++ [(n, r0)])
              from by simp [runBatchReqs, hf, hl]]
          have h1 := ih (dinsert results (requestKey r0) none,
            bumpCalls ps n, trace ++ [(n, r0)])
          simp only at h1 ⊢
          rw [hone trace] at h1
          omega
        | some v =>
          rw [show runBatchReqs loaders now n (r0 :: rs) (results, ps, trace)
              = runBatchReqs loaders now n rs (dinsert results (requestKey r0) (some v),
                  updateProv (bumpCalls ps n) n (fun x => x.record_success now),
                  trace ++ [(n, r0)])
              from by simp [runBatchReqs, hf, hl]]
          have h1 := ih (dinsert results (requestKey r0) (some v),
            updateProv (bumpCalls ps n) n (fun x => x.record_success now), trace ++ [(n, r0)])
          simp only at h1 ⊢
          rw [hone trace] at h1
          omega

theorem runGroups_traceCount (loaders : Loaders) (now : String)
    (groups : List (String × List Req))
    (acc : List (String × Option Value) × List Provider × List (String × Req)) (q : Req) :
    traceCount (runGroups loaders now groups acc).2.2 q
      ≤ traceCount acc.2.2 q + (groups.map (fun g => g.2.count q)).sum := by
  induction groups generalizing acc with
  | nil => simp [runGroups]
  | cons g gs ih =>
    obtain ⟨results, ps, trace⟩ := acc
    cases hf : findProv ps g.1 with
    | none =>
      rw [show runGroups loaders now (g :: gs) (results, ps, trace)
          = runGroups loaders now gs (results, ps, trace) from by simp [runGroups, hf]]
      have := ih (results, ps, trace)
      simp only [List.map_cons, List.sum_cons] at this ⊢
      omega
    | some p =>
      rw [show runGroups loaders now (g :: gs) (results, ps, trace)
          = runGroups loaders now gs
              (dupdate results (execute_provider_batch loaders now g.1 g.2 ps).1,
               (execute_provider_batch loaders now g.1 g.2 ps).2.1,
               trace ++ (execute_provider_batch loaders now g.1 g.2 ps).2.2)
          from by simp [runGroups, hf]]
      have h1 := ih (dupdate results (execute_provider_batch loaders now g.1 g.2 ps).1,
        (execute_provider_batch loaders now g.1 g.2 ps).2.1,
        trace ++ (execute_provider_batch loaders now g.1 g.2 ps).2.2)
      have h2 : traceCount (execute_provider_batch loaders now g.1 g.2 ps).2.2 q
          ≤ g.2.count q := by
        have := runBatchReqs_traceCount loaders now g.1 g.2 ([], ps, []) q
        simpa [traceCount] using this
      simp only [List.map_cons, List.sum_cons] at h1 ⊢
      rw [traceCount_append] at h1
      omega

theorem addToGroup_count (groups : List (String × List Req)) (n : String) (r q : Req) :
    ((addToGroup groups n r).map (fun g => g.2.count q)).sum
      = (groups.map (fun g => g.2.count q)).sum + (if r == q then 1 else 0) := by
  induction groups with
  | nil => simp [addToGroup, List.count_cons]
  | cons g gs ih =>
    by_cases h : g.1 == n
    · simp [addToGroup, h, List.count_append, List.count_cons]
      omega
    · simp [addToGroup, h, ih]
      omega

theorem groupByProviderAux_count (providers : List Provider) (reqs : List Req)
    (groups : List (String × List Req)) (q : Req) :
    ((groupByProviderAux providers groups reqs).map (fun g => g.2.count q)).sum
      ≤ (groups.map (fun g => g.2.count q)).sum + reqs.count q := by
  induction reqs generalizing groups with
  | nil => simp [groupByProviderAux]
  | cons r0 rs ih =>
    have hc : (r0 :: rs).count q = rs.count q + (if r0 == q then 1 else 0) :=
      List.count_cons q r0 rs
    cases he : eligibleProviders providers r0.1 with
    | nil =>
      rw [show groupByProviderAux providers groups (r0 :: rs)
          = groupByProviderAux providers groups rs from by simp [groupByProviderAux, he]]
      have := ih groups
      omega
    | cons best bs =>
      rw [show groupByProviderAux providers groups (r0 :: rs)
          = groupByProviderAux providers (addToGroup groups best.name r0) rs from by
        simp [groupByProviderAux, he]]
      have h1 := ih (addToGroup groups best.name r0)
      rw [addToGroup_count groups best.name r0 q] at h1
      omega

theorem detectRedundantAux_count (reqs : List Req) (seen : List String) (uniq : List Req)
    (rmap : List (String × String)) (q : Req) :
    (detectRedundantAux seen uniq rmap reqs).1.count q
      ≤ uniq.count q + (if requestKey q ∈ seen then 0 else 1) := by
  induction reqs generalizing seen uniq rmap with
  | nil =>
    split <;> simp [detectRedundantAux]
  | cons r0 rs ih =>
    by_cases hs : requestKey r0 ∈ seen
    · rw [show detectRedundantAux seen uniq rmap (r0 :: rs)
          = detectRedundantAux seen uniq (dinsert rmap (requestKey r0) (requestKey r0)) rs
          from by simp [detectRedundantAux, hs]]
      exact ih seen uniq _
    · rw [show detectRedundantAux seen uniq rmap (r0 :: rs)
          = detectRedundantAux (seen ++ [requestKey r0]) (uniq ++ [r0]) rmap rs from by
        simp [detectRedundantAux, hs]]
      have h1 := ih (seen ++ [requestKey r0]) (uniq ++ [r0]) rmap
      have hcount : (uniq ++ [r0]).count q
          = uniq.count q + (if r0 == q then 1 else 0) := by
        simp [List.count_append, List.count_cons]
      by_cases hq : requestKey q = requestKey r0
      · have hmem : requestKey q ∈ seen ++ [requestKey r0] := by simp [hq]
        rw [hcount, if_pos hmem] at h1
        have hni : requestKey q ∉ seen := by rw [hq]; exact hs
        rw [if_neg hni]
        by_cases hrq : r0 == q
        · rw [if_pos hrq] at h1; omega
        · rw [if_neg hrq] at h1; omega
      · have hmem : (requestKey q ∈ seen ++ [requestKey r0]) ↔ requestKey q ∈ seen := by
          simp [hq]
        have hrq : (r0 == q) = false := by
          refine beq_eq_false_iff_ne.mpr ?_
          intro h0
          exact hq (by rw [h0])
        have hcount0 : (uniq ++ [r0]).count q = uniq.count q := by
          rw [hcount, hrq]
          simp
        rw [hcount0] at h1
        by_cases hin : requestKey q ∈ seen
        · rw [if_pos (hmem.mpr hin)] at h1
          rw [if_pos hin]
          omega
        · rw [if_neg (fun hx => hin (hmem.mp hx))] at h1
          rw [if_neg hin]
          omega

/-- The keys of a result dict are pairwise distinct (Python dict keys are). -/
def keysNodup {α : Type} (d : List (String × α)) : Prop := (d.map Prod.fst).Nodup

theorem mem_keys_dinsert {α : Type} (d : List (String × α)) (k : String) (v : α)
    (x : String) (h : x ∈ (dinsert d k v).map Prod.fst) :
    x = k ∨ x ∈ d.map Prod.fst := by
  induction d with
  | nil => simp [dinsert] at h; exact Or.inl h
  | cons e d ih =>
    by_cases he : e.1 == k
    · rw [show dinsert (e :: d) k v = (k, v) :: d from by simp [dinsert, he]] at h
      rcases List.mem_cons.mp h with h0 | h0
      · exact Or.inl h0
      · exact Or.inr (List.mem_cons_of_mem _ h0)
    · rw [show dinsert (e :: d) k v = e :: dinsert d k v from by simp [dinsert, he]] at h
      rcases List.mem_cons.mp h with h0 | h0
      · exact Or.inr (by simp [h0])
      · rcases ih h0 with h1 | h1
        · exact Or.inl h1
        · exact Or.inr (List.mem_cons_of_mem _ h1)

theorem keysNodup_dinsert {α : Type} (d : List (String × α)) (k : String) (v : α)
    (h : keysNodup d) : keysNodup (dinsert d k v) := by
  induction d with
  | nil => simp [keysNodup, dinsert]
  | cons e d ih =>
    have hhead : e.1 ∉ d.map Prod.fst := by
      have := h
      simp only [keysNodup, List.map_cons, List.nodup_cons] at this
      exact this.1
    have htail : keysNodup d := by
      have := h
      simp only [keysNodup, List.map_cons, List.nodup_cons] at this
      exact this.2
    by_cases he : e.1 == k
    · rw [show dinsert (e :: d) k v = (k, v) :: d from by simp [dinsert, he]]
      have he' : e.1 = k := by simpa using he
      simp only [keysNodup, List.map_cons, List.nodup_cons]
      exact ⟨he' ▸ hhead, htail⟩
    · rw [show dinsert (e :: d) k v = e :: dinsert d k v from by simp [dinsert, he]]
      simp only [keysNodup, List.map_cons, List.nodup_cons]
      refine ⟨?_, ih htail⟩
      intro hx
      rcases mem_keys_dinsert d k v e.1 hx with h1 | h1
      · exact absurd h1 (by simpa using he)
      · exact hhead h1

theorem keysNodup_dupdate {α : Type} (d d2 : List (String × α)) (h : keysNodup d) :
    keysNodup (dupdate d d2) := by
  induction d2 generalizing d with
  | nil => exact h
  | cons e d2 ih =>
    rw [show dupdate d (e :: d2) = dupdate (dinsert d e.1 e.2) d2 from rfl]
    exact ih _ (keysNodup_dinsert d e.1 e.2 h)

theorem keys_mem_unique {α : Type} (d : List (String × α)) (h : keysNodup d)
    (k : String) (v w : α) (hv : (k, v) ∈ d) (hw : (k, w) ∈ d) : v = w := by
  induction d with
  | nil => simp at hv
  | cons e d ih =>
    have hhead : e.1 ∉ d.map Prod.fst := by
      have := h
      simp only [keysNodup, List.map_cons, List.nodup_cons] at this
      exact this.1
    have htail : keysNodup d := by
      have := h
      simp only [keysNodup, List.map_cons, List.nodup_cons] at this
      exact this.2
    rcases List.mem_cons.mp hv with hv0 | hv0 <;> rcases List.mem_cons.mp hw with hw0 | hw0
    · have h0 := hv0.trans hw0.symm
      exact (Prod.ext_iff.mp h0).2
    · exfalso
      apply hhead
      rw [← hv0]
      exact List.mem_map.mpr ⟨(k, w), hw0, rfl⟩
    · exfalso
      apply hhead
      rw [← hw0]
      exact List.mem_map.mpr ⟨(k, v), hv0, rfl⟩
    · exact ih htail hv0 hw0

theorem keysNodup_splitByCacheAux (cached : List (String × Option Value)) (reqs : List Req)
    (results : List (String × Option Value)) (remaining : List Req)
    (h : keysNodup results) :
    keysNodup (splitByCacheAux cached results remaining reqs).1 := by
  induction reqs generalizing results remaining with
  | nil => exact h
  | cons q rs ih =>
    cases hc : dlookup cached (batchCacheId q) with
    | none =>
      rw [show splitByCacheAux cached results remaining (q :: rs)
          = splitByCacheAux cached results (remaining ++ [q]) rs from by
        simp [splitByCacheAux, hc]]
      exact ih results _ h
    | some ov =>
      cases ov with
      | none =>
        rw [show splitByCacheAux cached results remaining (q :: rs)
            = splitByCacheAux cached results (remaining ++ [q]) rs from by
          simp [splitByCacheAux, hc]]
        exact ih results _ h
      | some entry =>
        rw [show splitByCacheAux cached results remaining (q :: rs)
            = splitByCacheAux cached
                (dinsert results (requestKey q) (some (entryData entry))) remaining rs from by
          simp [splitByCacheAux, hc]]
        exact ih _ remaining (keysNodup_dinsert results _ _ h)

theorem keysNodup_runGroups (loaders : Loaders) (now : String)
    (groups : List (String × List Req))
    (acc : List (String × Option Value) × List Provider × List (String × Req))
    (h : keysNodup acc.1) :
    keysNodup (runGroups loaders now groups acc).1 := by
  induction groups generalizing acc with
  | nil => exact h
  | cons g gs ih =>
    obtain ⟨results, ps, trace⟩ := acc
    cases hf : findProv ps g.1 with
    | none =>
      rw [show runGroups loaders now (g :: gs) (results, ps, trace)
          = runGroups loaders now gs (results, ps, trace) from by simp [runGroups, hf]]
      exact ih _ h
    | some p =>
      rw [show runGroups loaders now (g :: gs) (results, ps, trace)
          = runGroups loaders now gs
              (dupdate results (execute_provider_batch loaders now g.1 g.2 ps).1,
               (execute_provider_batch loaders now g.1 g.2 ps).2.1,
               trace ++ (execute_provider_batch loaders now g.1 g.2 ps).2.2)
          from by simp [runGroups, hf]]
      exact ih _ (keysNodup_dupdate results _ h)

theorem keysNodup_batch (loaders : Loaders) (now : String) (st : RegState)
    (requests : List Req) (use_cache : Bool) :
    keysNodup (get_metrics_batch loaders now st requests use_cache).1 := by
  by_cases hE : requests.isEmpty
  · unfold get_metrics_batch
    rw [if_pos hE]
    simp [keysNodup]
  · have hE' : requests.isEmpty = false := by simpa using hE
    unfold get_metrics_batch
    rw [hE']
    simp only [Bool.false_eq_true, if_false]
    cases use_cache with
    | false =>
      simp only [Bool.false_eq_true, if_false]
      rw [hE']
      simp only [Bool.false_eq_true, if_false]
      exact keysNodup_dupdate [] _ (by simp [keysNodup])
    | true =>
      simp only [if_true]
      have hn1 : keysNodup (splitByCache
          ((st.cache.get_batch (optimize_cache_keys requests)).1) requests).1 :=
        keysNodup_splitByCacheAux _ requests [] [] (by simp [keysNodup])
      by_cases hrem : (splitByCache
          ((st.cache.get_batch (optimize_cache_keys requests)).1) requests).2.isEmpty
      · rw [if_pos hrem]
        exact hn1
      · rw [if_neg hrem]
        exact keysNodup_dupdate _ _ hn1

/-- **C9**: for any request list (in particular one containing the same
`(metric, asset)` pair several times) at most one provider loader call is
issued for any given pair during `get_metrics_batch` — deduplication keeps
only the first occurrence — and the result map holds at most one entry per
request identifier, so every result entry associated with a duplicated pair
carries the same value. -/
theorem C9_batch_dedup (loaders : Loaders) (now : String) (st : RegState)
    (requests : List Req) (use_cache : Bool) (q : Req) :
    traceCount (batchTrace loaders now st requests use_cache) q ≤ 1
    ∧ ∀ v w, (requestKey q, v) ∈ (get_metrics_batch loaders now st requests use_cache).1 →
        (requestKey q, w) ∈ (get_metrics_batch loaders now st requests use_cache).1 →
        v = w := by
  constructor
  · unfold batchTrace
    by_cases hE : requests.isEmpty
    · rw [if_pos hE]
      simp [traceCount]
    · have hE' : requests.isEmpty = false := by simpa using hE
      rw [hE']
      simp only [Bool.false_eq_true, if_false]
      have hbound : ∀ remaining : List Req,
          traceCount (execute_provider_batches loaders now
            (group_by_provider (detect_redundant_requests remaining).1 st.providers)
            st.providers).2.2 q ≤ 1 := by
        intro remaining
        have h1 : (execute_provider_batches loaders now
            (group_by_provider (detect_redundant_requests remaining).1 st.providers)
            st.providers).2.2.countP (fun c => c.2 == q)
            ≤ ((group_by_provider (detect_redundant_requests remaining).1
                st.providers).map (fun g => g.2.count q)).sum := by
          have h0 := runGroups_traceCount loaders now
            (group_by_provider (detect_redundant_requests remaining).1 st.providers)
            ([], st.providers, []) q
          simpa [traceCount] using h0
        have h2 : ((group_by_provider (detect_redundant_requests remaining).1
            st.providers).map (fun g => g.2.count q)).sum
            ≤ (detect_redundant_requests remaining).1.count q := by
          have h0 := groupByProviderAux_count st.providers
            (detect_redundant_requests remaining).1 [] q
          simpa [group_by_provider] using h0
        have h3 : (detect_redundant_requests remaining).1.count q ≤ 1 := by
          have h0 := detectRedundantAux_count remaining [] [] [] q
          simpa [detect_redundant_requests] using h0
        simp only [traceCount]
        omega
      set remaining := if use_cache then
          (splitByCache ((st.cache.get_batch (optimize_cache_keys requests)).1) requests).2
        else requests with hrdef
      by_cases hrem : remaining.isEmpty
      · rw [if_pos hrem]
        simp [traceCount]
      · rw [if_neg hrem]
        exact hbound remaining
  · intro v w hv hw
    exact keys_mem_unique _ (keysNodup_batch loaders now st requests use_cache)
      (requestKey q) v w hv hw

/-- Witness for C9 at the spec's duplicated request list
`[("price","BTC"), ("price","BTC")]`. -/
theorem C9_batch_dedup_witness :
    traceCount (batchTrace (fun _ _ _ _ => .returns (some (.vstr "w"))) "t"
        ⟨[mkProvider "P" 1 ["price"]], workingCache⟩
        [("price", "BTC"), ("price", "BTC")] true) ("price", "BTC") ≤ 1
    ∧ some (Value.vstr "w") = some (Value.vstr "w") := by
  have h := C9_batch_dedup (fun _ _ _ _ => .returns (some (.vstr "w"))) "t"
    ⟨[mkProvider "P" 1 ["price"]], workingCache⟩
    [("price", "BTC"), ("price", "BTC")] true ("price", "BTC")
  exact ⟨h.1, h.2 (some (.vstr "w")) (some (.vstr "w")) (by decide) (by decide)⟩

end CA
